import Mathlib

/-!
Verification of the script-generation response-recovery pipeline of PodGenie
(`generatePodcastScript` in the Gemini service module), modelled as pure
functions over `List Char`.  The model covers the parsing stage that turns the
raw model response text into speaker-tagged script lines:

* monologue mode: split on the regex `\n\s*\n`, discard blank paragraphs,
  tag everything `Narrator`;
* conversation mode: strip code fences, try a strict JSON parse, fall back to
  the regex `\{\s*"speaker"\s*:\s*"([^"]+)"\s*,\s*"text"\s*:\s*"((?:[^"\\]|\\.)*)"\s*\}`
  with manual unescaping, fall back to a single Expert line when the stripped
  text is longer than 50 characters, and otherwise fail;
* the final mapping of recovered `{speaker, text}` objects to the canonical
  speaker enumeration.
-/

/-- Speaker taxonomy from `types.ts`. -/
inductive Speaker where
  | Host
  | Expert
  | Narrator
deriving DecidableEq, Repr

/-- Podcast mode from `types.ts` (`PodcastMode`). -/
inductive Mode where
  | conversation
  | monologue
deriving DecidableEq, Repr

/-- Tone from `types.ts`; carried along but never inspected by the parser. -/
inductive Tone where
  | Professional
  | Casual
  | Funny
deriving DecidableEq, Repr

/-- Target language from `types.ts`; only used in prompt construction. -/
inductive TargetLanguage where
  | English
  | Spanish
deriving DecidableEq, Repr

/-- `PodcastConfig` from `types.ts`. -/
structure PodcastConfig where
  hostName : List Char
  expertName : List Char
  tone : Tone
  mode : Mode
  language : TargetLanguage
deriving DecidableEq, Repr

/-- A raw `{speaker, text}` object as recovered from the model response,
before mapping into the `Speaker` enumeration. -/
structure RawObj where
  speaker : List Char
  text : List Char
deriving DecidableEq, Repr

/-- A line of the final script (`ScriptLine` in `types.ts`). -/
structure ScriptLine where
  speaker : Speaker
  text : List Char
deriving DecidableEq, Repr

/-- The errors the parse stage can propagate: `scriptParse` is the explicit
`throw new Error("Failed to parse script…")` branch, called
`ScriptParseError` in the specification; `typeThrown` is the `TypeError`
raised by running `script.map(...)` on a parsed value that is not an array,
or by reading a property of a `null` element — the surrounding catch block
rethrows it to the caller unchanged. -/
inductive ScriptError where
  | scriptParse
  | typeThrown
deriving DecidableEq, Repr

/-- JavaScript whitespace class `\s` (ASCII part), also used by
`String.prototype.trim`. -/
def wsChar (c : Char) : Bool :=
  c == ' ' || c == '\t' || c == '\n' || c == '\r' ||
    c == Char.ofNat 11 || c == Char.ofNat 12

/-- Drop leading JavaScript whitespace. -/
def skipWs (s : List Char) : List Char :=
  s.dropWhile wsChar

/-- JavaScript `String.prototype.trim` on a character list. -/
def trim (s : List Char) : List Char :=
  ((s.dropWhile wsChar).reverse.dropWhile wsChar).reverse

/-- `leads pat s` is true when `pat` occurs at the start of `s`. -/
def leads : List Char → List Char → Bool
  | [], _ => true
  | _ :: _, [] => false
  | p :: ps, c :: cs => p == c && leads ps cs

/-- `endsWith pat s` is true when `pat` occurs at the end of `s`. -/
def endsWith (pat s : List Char) : Bool :=
  leads pat.reverse s.reverse

/-- Drop trailing JavaScript whitespace. -/
def dropRightWs (s : List Char) : List Char :=
  (s.reverse.dropWhile wsChar).reverse

/-- The code-fence sanitizer of the conversation branch:
`jsonStr.replace(/^```json\s*/, "").replace(/^```\s*/, "").replace(/\s*```$/, "")`. -/
def fenceStrip (s : List Char) : List Char :=
  let s1 := if leads ('`' :: '`' :: '`' :: 'j' :: 's' :: 'o' :: 'n' :: []) s then
      (s.drop 7).dropWhile wsChar else s
  let s2 := if leads ('`' :: '`' :: '`' :: []) s1 then
      (s1.drop 3).dropWhile wsChar else s1
  if endsWith ('`' :: '`' :: '`' :: []) s2 then
    dropRightWs (s2.take (s2.length - 3))
  else s2

/-- Index of the last `'\n'` in a list, if any. -/
def lastNlIdx : List Char → Option Nat
  | [] => none
  | c :: cs =>
    match lastNlIdx cs with
    | some i => some (i + 1)
    | none => if c == '\n' then some 0 else none

/-- Length of the leftmost match of the separator regex `\n\s*\n` at the head
of the input (greedy `\s*` with minimal backtracking, as in JavaScript):
a newline, then whitespace up to and including the last `'\n'` of the
whitespace run. `none` when the regex does not match at this position. -/
def sepLen : List Char → Option Nat
  | c :: rest =>
    if c == '\n' then
      match lastNlIdx (rest.takeWhile wsChar) with
      | some i => some (i + 2)
      | none => none
    else none
  | [] => none

/-- Fuelled worker for `String.prototype.split(/\n\s*\n/)`: scan left to
right, cutting a fragment at each separator match. -/
def splitAuxF : Nat → List Char → List Char → List (List Char)
  | 0, s, acc => [acc.reverse ++ s]
  | _ + 1, [], acc => [acc.reverse]
  | f + 1, c :: cs, acc =>
    match sepLen (c :: cs) with
    | some n => acc.reverse :: splitAuxF f (List.drop n (c :: cs)) []
    | none => splitAuxF f cs (c :: acc)

/-- `responseText.split(/\n\s*\n/)` from the monologue branch. -/
def splitMono (s : List Char) : List (List Char) :=
  splitAuxF s.length s []

/-- The monologue branch: split into paragraph candidates, keep those that
are non-empty after trimming, tag each with the literal speaker label
`"Narrator"`. -/
def monologueObjs (responseText : List Char) : List RawObj :=
  ((splitMono responseText).filter (fun p => !(trim p).isEmpty)).map
    (fun p => ⟨'N' :: 'a' :: 'r' :: 'r' :: 'a' :: 't' :: 'o' :: 'r' :: [], trim p⟩)

/-! ## Manual unescaping of the pattern-recovery tier

The code unescapes the regex capture with three sequential global
replacements: `\" → "`, then `\n → newline`, then `\\ → \`.  Each global
replacement scans left to right, non-overlapping. -/

/-- `text.replace(/\\"/g, '"')`. -/
def replQuote : List Char → List Char
  | [] => []
  | c :: [] => c :: []
  | c :: d :: rest =>
    if c = '\\' ∧ d = '"' then '"' :: replQuote rest
    else c :: replQuote (d :: rest)

/-- `text.replace(/\\n/g, '\n')`. -/
def replNl : List Char → List Char
  | [] => []
  | c :: [] => c :: []
  | c :: d :: rest =>
    if c = '\\' ∧ d = 'n' then '\n' :: replNl rest
    else c :: replNl (d :: rest)

/-- `text.replace(/\\\\/g, '\\')`. -/
def replBack : List Char → List Char
  | [] => []
  | c :: [] => c :: []
  | c :: d :: rest =>
    if c = '\\' ∧ d = '\\' then '\\' :: replBack rest
    else c :: replBack (d :: rest)

/-- The full manual unescape applied to the `text` capture of the fallback
regex. -/
def unescapeText (s : List Char) : List Char :=
  replBack (replNl (replQuote s))

/-- Modelled from the spec: JSON string escaping as performed by the provider
when serializing a `text` value before (possible) truncation — `"` becomes
`\"`, `\` becomes `\\`, a newline becomes `\n`, all other characters are kept
verbatim.  This is the escape whose inverse the unescape above is claimed to
be, and the escape used by the canonical serializer below. -/
def escapeJson : List Char → List Char
  | [] => []
  | c :: rest =>
    if c = '"' then '\\' :: '"' :: escapeJson rest
    else if c = '\\' then '\\' :: '\\' :: escapeJson rest
    else if c = '\n' then '\\' :: 'n' :: escapeJson rest
    else c :: escapeJson rest

/-- `noBackNl s` holds when `s` never has a backslash immediately followed by
the letter `n`; such texts round-trip through escape/unescape. -/
def noBackNl : List Char → Bool
  | [] => true
  | _ :: [] => true
  | c :: d :: rest => !(c = '\\' ∧ d = 'n' : Bool) && noBackNl (d :: rest)

/-! ## The pattern-recovery matcher

The fallback regex is
`\{\s*"speaker"\s*:\s*"([^"]+)"\s*,\s*"text"\s*:\s*"((?:[^"\\]|\\.)*)"\s*\}`
(global).  It is deterministic: every `\s*` is followed by a non-whitespace
literal, the speaker capture `[^"]+` is a maximal run of non-quote
characters, and the text capture has a unique decomposition into `[^"\\]`
singles and `\\.` pairs ending at the first unconsumable character, which
must then be the closing quote.  `tryMatch` mirrors one attempt at a fixed
position, `scanAux` mirrors `matchAll`. -/

/-- A JavaScript regex line terminator (which `.` does not match). -/
def lineTerm (c : Char) : Bool :=
  c == '\n' || c == '\r' || c == Char.ofNat 0x2028 || c == Char.ofNat 0x2029

/-- Greedy matcher for `(?:[^"\\]|\\.)*` followed by a required `"`:
returns the capture and the rest beginning at the closing quote. -/
def munch : List Char → Option (List Char × List Char)
  | [] => none
  | c :: cs =>
    if c = '"' then some ([], c :: cs)
    else if c = '\\' then
      match cs with
      | [] => none
      | d :: ds =>
        if lineTerm d then none
        else match munch ds with
          | some (cap, r) => some (c :: d :: cap, r)
          | none => none
    else
      match munch cs with
      | some (cap, r) => some (c :: cap, r)
      | none => none

/-- `expectStr lit s` consumes the literal `lit` at the head of `s`. -/
def expectStr (lit s : List Char) : Option (List Char) :=
  if leads lit s then some (s.drop lit.length) else none

/-- The literal `"speaker"` (with quotes) from the fallback regex. -/
def speakerLit : List Char :=
  '"' :: 's' :: 'p' :: 'e' :: 'a' :: 'k' :: 'e' :: 'r' :: '"' :: []

/-- The literal `"text"` (with quotes) from the fallback regex. -/
def textLit : List Char :=
  '"' :: 't' :: 'e' :: 'x' :: 't' :: '"' :: []

/-- The part of one regex attempt after the speaker field's closing quote:
`\s*,\s*"text"\s*:\s*"((?:[^"\\]|\\.)*)"\s*\}`.  Returns the raw text
capture and the rest of the input after the match. -/
def matchTextPart (v : List Char) : Option (List Char × List Char) :=
  match skipWs v with
  | [] => none
  | c :: r5 =>
    if c = ',' then
      match expectStr textLit (skipWs r5) with
      | none => none
      | some r6 =>
        match skipWs r6 with
        | [] => none
        | c1 :: r7 =>
          if c1 = ':' then
            match skipWs r7 with
            | [] => none
            | c2 :: r8 =>
              if c2 = '"' then
                match munch r8 with
                | none => none
                | some (cap, r9) =>
                  match r9 with
                  | [] => none
                  | c3 :: r9t =>
                    if c3 = '"' then
                      match skipWs r9t with
                      | [] => none
                      | c4 :: r10 =>
                        if c4 = '}' then some (cap, r10) else none
                    else none
              else none
          else none
    else none

/-- One attempt of the fallback regex at the head of `s`: on success, the
captured raw speaker and raw (still escaped) text, and the rest of the input
after the match. -/
def tryMatch (s : List Char) : Option (RawObj × List Char) :=
  match s with
  | [] => none
  | c :: r0 =>
    if c = '{' then
      match expectStr speakerLit (skipWs r0) with
      | none => none
      | some r1 =>
        match skipWs r1 with
        | [] => none
        | c1 :: r2 =>
          if c1 = ':' then
            match skipWs r2 with
            | [] => none
            | c2 :: r3 =>
              if c2 = '"' then
                let sp := r3.takeWhile (fun x => x != '"')
                if sp.isEmpty then none
                else
                  match r3.drop sp.length with
                  | [] => none
                  | c3 :: r4 =>
                    if c3 = '"' then
                      match matchTextPart r4 with
                      | some (cap, rest) => some (⟨sp, cap⟩, rest)
                      | none => none
                    else none
              else none
          else none
    else none

/-- Fuelled scan mirroring `jsonStr.matchAll(regex)`: collect all
non-overlapping matches left to right. -/
def scanAux : Nat → List Char → List RawObj
  | 0, _ => []
  | _ + 1, [] => []
  | f + 1, c :: cs =>
    match tryMatch (c :: cs) with
    | some (o, rest) => o :: scanAux f rest
    | none => scanAux f cs

/-- All matches of the fallback regex, in order of appearance. -/
def patternMatches (s : List Char) : List RawObj :=
  scanAux s.length s

/-! ## The strict-parse tier, restricted to the expected shape

`JSON.parse(jsonStr)` followed by the extraction of the `speaker` and `text`
string fields.  The restricted model below parses a JSON array of flat
objects whose values are scalars (strings with the standard escapes, number
lexemes, `true`/`false`/`null`), skipping JSON whitespace, and then extracts
the `speaker` and `text` string fields of every element (last occurrence of a
duplicated key wins, as in JavaScript).  It is faithful to the source on the
two regions the round-trip and fallback claims below use: on canonical
serializations of `{speaker, text}` arrays it succeeds with exactly the
objects `JSON.parse` would deliver, and on syntactically invalid JSON it
fails exactly as `JSON.parse` throws.  On valid JSON outside the shape it
fails although the source — which performs no shape check after
`JSON.parse` — does not: that region is modelled exactly by `jsonParse` and
`generateScriptJS` further below, and the claims about the fallback ladder
are stated over those. -/

/-- Scalar JSON values as needed for flat `{speaker, text}` objects. -/
inductive JVal where
  | jstr : List Char → JVal
  | jnum : JVal
  | jtrue : JVal
  | jfalse : JVal
  | jnull : JVal
deriving DecidableEq, Repr

/-- Decoding of a JSON string escape character. -/
def unescChar (d : Char) : Option Char :=
  if d = '"' then some '"'
  else if d = '\\' then some '\\'
  else if d = '/' then some '/'
  else if d = 'n' then some '\n'
  else if d = 't' then some '\t'
  else if d = 'r' then some '\r'
  else if d = 'b' then some (Char.ofNat 8)
  else if d = 'f' then some (Char.ofNat 12)
  else none

/-- JSON string body parser, positioned after the opening quote; rejects raw
control characters, accepts the standard single-character escapes. -/
def parseStringBody : Nat → List Char → Option (List Char × List Char)
  | 0, _ => none
  | _ + 1, [] => none
  | f + 1, c :: cs =>
    if c = '"' then some ([], cs)
    else if c = '\\' then
      match cs with
      | [] => none
      | d :: ds =>
        match unescChar d with
        | none => none
        | some e =>
          match parseStringBody f ds with
          | some (content, rest) => some (e :: content, rest)
          | none => none
    else if c.toNat < 32 then none
    else
      match parseStringBody f cs with
      | some (content, rest) => some (c :: content, rest)
      | none => none

/-- Characters that may appear in a number lexeme. -/
def numChar (c : Char) : Bool :=
  c.isDigit || c == '-' || c == '+' || c == '.' || c == 'e' || c == 'E'

/-- Parse one scalar JSON value. -/
def parseScalar (fuel : Nat) (cs : List Char) : Option (JVal × List Char) :=
  match cs with
  | [] => none
  | c :: rest =>
    if c = '"' then
      match parseStringBody fuel rest with
      | some (s, r) => some (JVal.jstr s, r)
      | none => none
    else if leads ('t' :: 'r' :: 'u' :: 'e' :: []) cs then some (JVal.jtrue, cs.drop 4)
    else if leads ('f' :: 'a' :: 'l' :: 's' :: 'e' :: []) cs then some (JVal.jfalse, cs.drop 5)
    else if leads ('n' :: 'u' :: 'l' :: 'l' :: []) cs then some (JVal.jnull, cs.drop 4)
    else if numChar c then some (JVal.jnum, cs.dropWhile numChar)
    else none

/-- Parse a non-empty `"key": value` sequence up to and including the closing
`'}'` of the object. -/
def parsePairSeq : Nat → List Char → Option (List (List Char × JVal) × List Char)
  | 0, _ => none
  | f + 1, cs =>
    match skipWs cs with
    | [] => none
    | c :: r1 =>
      if c = '"' then
        match parseStringBody f r1 with
        | none => none
        | some (key, r2) =>
          match skipWs r2 with
          | [] => none
          | c1 :: r3 =>
            if c1 = ':' then
              match parseScalar f (skipWs r3) with
              | none => none
              | some (v, r4) =>
                match skipWs r4 with
                | [] => none
                | c2 :: r5 =>
                  if c2 = ',' then
                    match parsePairSeq f r5 with
                    | some (ps, r) => some ((key, v) :: ps, r)
                    | none => none
                  else if c2 = '}' then some ((key, v) :: [], r5)
                  else none
            else none
      else none

/-- Parse one flat JSON object (`'{'` through `'}'`). -/
def parseObjFlat (fuel : Nat) (cs : List Char) : Option (List (List Char × JVal) × List Char) :=
  match cs with
  | [] => none
  | c :: r =>
    if c = '{' then
      match skipWs r with
      | [] => parsePairSeq fuel r
      | c2 :: r2 => if c2 = '}' then some ([], r2) else parsePairSeq fuel r
    else none

/-- Parse a non-empty object sequence up to and including the closing `']'`
of the array. -/
def parseObjSeq : Nat → List Char → Option (List (List (List Char × JVal)) × List Char)
  | 0, _ => none
  | f + 1, cs =>
    match parseObjFlat f (skipWs cs) with
    | none => none
    | some (o, r1) =>
      match skipWs r1 with
      | [] => none
      | c :: r2 =>
        if c = ',' then
          match parseObjSeq f r2 with
          | some (os, r) => some (o :: os, r)
          | none => none
        else if c = ']' then some (o :: [], r2)
        else none

/-- Parse a JSON array of flat objects (the response-schema shape). -/
def parseTopArr (fuel : Nat) (cs : List Char) : Option (List (List (List Char × JVal)) × List Char) :=
  match skipWs cs with
  | [] => none
  | c :: r =>
    if c = '[' then
      match skipWs r with
      | [] => parseObjSeq fuel r
      | c2 :: r2 => if c2 = ']' then some ([], r2) else parseObjSeq fuel r
    else none

/-- JavaScript property lookup on a parsed object: the last occurrence of a
duplicated key wins. -/
def lookupLast (k : List Char) : List (List Char × JVal) → Option JVal
  | [] => none
  | (k', v) :: rest =>
    match lookupLast k rest with
    | some v' => some v'
    | none => if k' = k then some v else none

/-- The key `speaker`. -/
def speakerKey : List Char :=
  's' :: 'p' :: 'e' :: 'a' :: 'k' :: 'e' :: 'r' :: []

/-- The key `text`. -/
def textKey : List Char :=
  't' :: 'e' :: 'x' :: 't' :: []

/-- Extraction of the `{speaker, text}` fields of one parsed object. -/
def objToRaw (ps : List (List Char × JVal)) : Option RawObj :=
  match lookupLast speakerKey ps, lookupLast textKey ps with
  | some (JVal.jstr s), some (JVal.jstr t) => some ⟨s, t⟩
  | _, _ => none

/-- Extraction over the whole parsed array. -/
def objsToRaw : List (List (List Char × JVal)) → Option (List RawObj)
  | [] => some []
  | o :: os =>
    match objToRaw o, objsToRaw os with
    | some r, some rs => some (r :: rs)
    | _, _ => none

/-- The strict-parse tier restricted to the `{speaker, text}[]` shape:
`JSON.parse` followed by the field extraction.  See the section comment
above for the domain on which this restriction is faithful; `jsonParse`
below models `JSON.parse` over its full domain. -/
def strictParseScript (cs : List Char) : Option (List RawObj) :=
  match parseTopArr (cs.length + 1) cs with
  | none => none
  | some (objs, rest) =>
    if (skipWs rest).isEmpty then objsToRaw objs else none

/-! ## The pipeline -/

/-- The literal `Expert`. -/
def expertLabel : List Char :=
  'E' :: 'x' :: 'p' :: 'e' :: 'r' :: 't' :: []

/-- The literal `Host`. -/
def hostLabel : List Char :=
  'H' :: 'o' :: 's' :: 't' :: []

/-- The literal `Speaker 1`. -/
def speaker1Label : List Char :=
  'S' :: 'p' :: 'e' :: 'a' :: 'k' :: 'e' :: 'r' :: ' ' :: '1' :: []

/-- The parsing stage of `generatePodcastScript`, producing the raw
`{speaker, text}` objects before speaker mapping: monologue split on one
side; fence stripping, strict parse, pattern recovery, degenerate single
Expert block, or `ScriptParseError` on the other.  Its strict gate is the
shape-restricted `strictParseScript`, so this function is faithful on
canonical serializations and on inputs that are not valid JSON; the
conversation branch over the full `JSON.parse` domain is
`generateScriptJS` below. -/
def scriptObjs (config : PodcastConfig) (responseText : List Char) :
    Except ScriptError (List RawObj) :=
  if config.mode = Mode.monologue then
    Except.ok (monologueObjs responseText)
  else
    let jsonStr := fenceStrip responseText
    match strictParseScript jsonStr with
    | some script => Except.ok script
    | none =>
      let ms := patternMatches jsonStr
      if !ms.isEmpty then
        Except.ok (ms.map (fun m => ⟨m.speaker, unescapeText m.text⟩))
      else if 50 < jsonStr.length then
        Except.ok (⟨expertLabel, jsonStr⟩ :: [])
      else
        Except.error ScriptError.scriptParse

/-- The final mapping of one recovered object to a `ScriptLine`
(`script.map(...)` at the end of `generatePodcastScript`). -/
def mapLine (config : PodcastConfig) (s : RawObj) : ScriptLine :=
  let speakerEnum :=
    if config.mode = Mode.monologue then Speaker.Narrator
    else if s.speaker = hostLabel ∨ s.speaker = config.hostName ∨ s.speaker = speaker1Label then
      Speaker.Host
    else Speaker.Expert
  ⟨speakerEnum, s.text⟩

/-- Speaker mapping over a whole recovered script. -/
def mapScript (config : PodcastConfig) (script : List RawObj) : List ScriptLine :=
  script.map (mapLine config)

/-- `generatePodcastScript` from the model response on: parse the response
text according to the mode, then map every recovered object through the
speaker mapper.  Errors propagate to the caller.  Like `scriptObjs`, this is
the restricted model; `generateScriptJS` below covers arbitrary valid
JSON. -/
def generateScriptFromResponse (config : PodcastConfig) (responseText : List Char) :
    Except ScriptError (List ScriptLine) :=
  match scriptObjs config responseText with
  | Except.error e => Except.error e
  | Except.ok script => Except.ok (mapScript config script)

/-- A sample conversation-mode configuration. -/
def convConfig : PodcastConfig :=
  ⟨'A' :: 'l' :: 'i' :: 'c' :: 'e' :: [],
   'B' :: 'o' :: 'b' :: [],
   Tone.Professional, Mode.conversation, TargetLanguage.English⟩

/-- A sample monologue-mode configuration. -/
def monoConfig : PodcastConfig :=
  ⟨'A' :: 'l' :: 'i' :: 'c' :: 'e' :: [],
   'B' :: 'o' :: 'b' :: [],
   Tone.Casual, Mode.monologue, TargetLanguage.English⟩

/-! ## Canonical serialization of a `{speaker, text}` array

Modelled from the spec: the well-formed JSON arrays of `{speaker, text}`
objects that the provider is instructed to emit, in the canonical layout
`[{"speaker": "S", "text": "T"}, …]` with the escape above, and their
truncation after `N` complete objects somewhere inside the following
object. -/

/-- `{"speaker": "` — the opening of one serialized object. -/
def jsonObjOpen : List Char :=
  '{' :: '"' :: 's' :: 'p' :: 'e' :: 'a' :: 'k' :: 'e' :: 'r' :: '"' :: ':' :: ' ' :: '"' :: []

/-- `", "text": "` — between the speaker and text values. -/
def jsonObjMid : List Char :=
  '"' :: ',' :: ' ' :: '"' :: 't' :: 'e' :: 'x' :: 't' :: '"' :: ':' :: ' ' :: '"' :: []

/-- `"}` — the closing of one serialized object. -/
def jsonObjClose : List Char :=
  '"' :: '}' :: []

/-- One serialized `{speaker, text}` object. -/
def objString (o : RawObj) : List Char :=
  jsonObjOpen ++ escapeJson o.speaker ++ jsonObjMid ++ escapeJson o.text ++ jsonObjClose

/-- Serialized objects joined by `", "`. -/
def arrBody : List RawObj → List Char
  | [] => []
  | o :: [] => objString o
  | o :: os => objString o ++ ',' :: ' ' :: arrBody os

/-- A complete serialized array. -/
def serializeArr (objs : List RawObj) : List Char :=
  '[' :: arrBody objs ++ ']' :: []

/-- The tail of a serialized array truncated inside the object following
`pre`: the complete objects of `pre`, then the first `m` characters of the
serialization of `last`. -/
def truncTail : List RawObj → RawObj → Nat → List Char
  | [], last, m => (objString last).take m
  | o :: os, last, m => objString o ++ ',' :: ' ' :: truncTail os last m

/-- A serialized array truncated mid-object after the complete objects of
`pre`. -/
def truncRaw (pre : List RawObj) (last : RawObj) (m : Nat) : List Char :=
  '[' :: truncTail pre last m

/-- A speaker label that serializes to itself and cannot collide with the
structural parts of the pattern: non-empty, no quote, no backslash, no
newline, no opening brace. -/
def speakerOk (s : List Char) : Bool :=
  !s.isEmpty && s.all (fun c => c != '"' && c != '\\' && c != '\n' && c != '{')

/-- Characters allowed to appear unescaped inside a serialized JSON string:
everything except the raw control characters, which JSON requires escaped
(the newline is the only control character the canonical escape handles). -/
def jsonSafe (s : List Char) : Bool :=
  s.all (fun c => 32 ≤ c.toNat || c == '\n')

/-! ## The exact model of `JSON.parse` and of the final `script.map`

The source assigns `script = JSON.parse(jsonStr)` inside a `try` with no
shape check at all: any valid JSON — of any shape — makes the strict tier
succeed, the catch block (and with it the whole fallback ladder) runs only
when `JSON.parse` throws, and the parsed value then flows into
`script.map(...)` unchecked.  The definitions below model this exactly: a
parser accepting precisely the JSON grammar, the runtime behaviour of the
final mapper on arbitrary parsed values (`undefined` properties, `TypeError`
on non-arrays and `null` elements), and the resulting end-to-end function
`generateScriptJS`. -/

mutual
/-- A JavaScript value as returned by `JSON.parse`: `null`, a boolean, a
number (kept as its unconverted lexeme — no claim observes numeric values),
a string, an array, or an object with its fields in source order (duplicate
keys are kept; lookups take the last occurrence, as JavaScript object
construction does). -/
inductive Jv where
  | jnull : Jv
  | jbool : Bool → Jv
  | jnum : List Char → Jv
  | jstr : List Char → Jv
  | jarr : JvList → Jv
  | jobj : JvObj → Jv
deriving DecidableEq
inductive JvList where
  | nil : JvList
  | cons : Jv → JvList → JvList
deriving DecidableEq
inductive JvObj where
  | nil : JvObj
  | cons : List Char → Jv → JvObj → JvObj
deriving DecidableEq
end

/-- JSON whitespace as accepted by `JSON.parse` between tokens: space, tab,
line feed, carriage return — narrower than the JavaScript `\s` class used
by the string methods elsewhere. -/
def jsonWsChar (c : Char) : Bool :=
  c = ' ' || c = '\t' || c = '\n' || c = '\r'

/-- Drop leading JSON whitespace. -/
def skipJw (s : List Char) : List Char :=
  s.dropWhile jsonWsChar

/-- Value of one hexadecimal digit. -/
def hexVal (c : Char) : Option Nat :=
  if '0' ≤ c ∧ c ≤ '9' then some (c.toNat - 48)
  else if 'a' ≤ c ∧ c ≤ 'f' then some (c.toNat - 87)
  else if 'A' ≤ c ∧ c ≤ 'F' then some (c.toNat - 55)
  else none

/-- A JSON string body after the opening quote, as accepted by `JSON.parse`:
the eight single-character escapes, `\uXXXX` with four hex digits (decoded
as that code unit; surrogate pairs are not recombined — a granularity no
claim observes, acceptance being exact), and any character except the raw
controls below 32. -/
def jvString : Nat → List Char → Option (List Char × List Char)
  | 0, _ => none
  | _ + 1, [] => none
  | f + 1, c :: cs =>
    if c = '"' then some ([], cs)
    else if c = '\\' then
      match cs with
      | [] => none
      | d :: ds =>
        if d = 'u' then
          match ds with
          | h1 :: h2 :: h3 :: h4 :: ds2 =>
            match hexVal h1, hexVal h2, hexVal h3, hexVal h4 with
            | some a, some b, some e, some g =>
              match jvString f ds2 with
              | some (s, rest) =>
                some (Char.ofNat (((a * 16 + b) * 16 + e) * 16 + g) :: s, rest)
              | none => none
            | _, _, _, _ => none
          | _ => none
        else
          match unescChar d with
          | some e =>
            match jvString f ds with
            | some (s, rest) => some (e :: s, rest)
            | none => none
          | none => none
    else if c.toNat < 32 then none
    else
      match jvString f cs with
      | some (s, rest) => some (c :: s, rest)
      | none => none

/-- The integer part of a JSON number: `0`, or a nonzero digit followed by
digits (no leading zeros). -/
def jvIntPart : List Char → Option (List Char × List Char)
  | [] => none
  | c :: r =>
    if c = '0' then some ('0' :: [], r)
    else if c.isDigit then
      some (c :: r.takeWhile Char.isDigit, r.dropWhile Char.isDigit)
    else none

/-- The optional fraction part of a JSON number: nothing, or a dot followed
by at least one digit. -/
def jvFracPart : List Char → Option (List Char × List Char)
  | [] => some ([], [])
  | c :: r =>
    if c = '.' then
      match r.takeWhile Char.isDigit with
      | [] => none
      | ds => some ('.' :: ds, r.dropWhile Char.isDigit)
    else some ([], c :: r)

/-- The optional exponent part of a JSON number: nothing, or `e`/`E`, an
optional sign, and at least one digit. -/
def jvExpPart : List Char → Option (List Char × List Char)
  | [] => some ([], [])
  | c :: r =>
    if c = 'e' ∨ c = 'E' then
      let (sgn, r1) :=
        match r with
        | s :: r2 => if s = '+' ∨ s = '-' then (s :: [], r2) else ([], r)
        | [] => ([], [])
      match r1.takeWhile Char.isDigit with
      | [] => none
      | ds => some (c :: (sgn ++ ds), r1.dropWhile Char.isDigit)
    else some ([], c :: r)

/-- A JSON number lexeme: optional minus, integer part, optional fraction
and exponent. -/
def jvNumber (cs : List Char) : Option (List Char × List Char) :=
  let (sgn, rest0) :=
    match cs with
    | c :: r => if c = '-' then ('-' :: [], r) else ([], cs)
    | [] => ([], [])
  match jvIntPart rest0 with
  | none => none
  | some (ip, r1) =>
    match jvFracPart r1 with
    | none => none
    | some (fp, r2) =>
      match jvExpPart r2 with
      | none => none
      | some (ep, r3) => some (sgn ++ ip ++ fp ++ ep, r3)

/-- The elements of a non-empty JSON array, positioned at a value: parse the
value with the supplied parser, then a comma and further elements or the
closing bracket.  Fuelled by the element count. -/
def jvItems (pv : List Char → Option (Jv × List Char)) :
    Nat → List Char → Option (JvList × List Char)
  | 0, _ => none
  | g + 1, cs =>
    match pv cs with
    | none => none
    | some (v, r) =>
      match skipJw r with
      | [] => none
      | c :: r2 =>
        if c = ',' then
          match jvItems pv g (skipJw r2) with
          | some (es, rest) => some (JvList.cons v es, rest)
          | none => none
        else if c = ']' then some (JvList.cons v JvList.nil, r2)
        else none

/-- The members of a non-empty JSON object, positioned at a key: a string
key, a colon, a value, then a comma and further members or the closing
brace.  Fuelled by the member count. -/
def jvMembers (pv : List Char → Option (Jv × List Char)) :
    Nat → List Char → Option (JvObj × List Char)
  | 0, _ => none
  | g + 1, cs =>
    match cs with
    | [] => none
    | c :: r =>
      if c = '"' then
        match jvString (r.length + 1) r with
        | none => none
        | some (k, r1) =>
          match skipJw r1 with
          | [] => none
          | c2 :: r2 =>
            if c2 = ':' then
              match pv (skipJw r2) with
              | none => none
              | some (v, r3) =>
                match skipJw r3 with
                | [] => none
                | c3 :: r4 =>
                  if c3 = ',' then
                    match jvMembers pv g (skipJw r4) with
                    | some (ms, rest) => some (JvObj.cons k v ms, rest)
                    | none => none
                  else if c3 = '}' then some (JvObj.cons k v JvObj.nil, r4)
                  else none
            else none
      else none

/-- A JSON value at the head of the input (leading whitespace already
skipped): array, object, string, `true`, `false`, `null`, or number.
Fuelled on the nesting; every recursive call decreases the fuel, and
`jsonParse` supplies fuel ample for any input. -/
def jvValue : Nat → List Char → Option (Jv × List Char)
  | 0, _ => none
  | f + 1, cs =>
    match cs with
    | [] => none
    | c :: r =>
      if c = '[' then
        match skipJw r with
        | [] => none
        | c2 :: r2 =>
          if c2 = ']' then some (Jv.jarr JvList.nil, r2)
          else
            match jvItems (jvValue f) (f + 1) (c2 :: r2) with
            | some (es, rest) => some (Jv.jarr es, rest)
            | none => none
      else if c = '{' then
        match skipJw r with
        | [] => none
        | c2 :: r2 =>
          if c2 = '}' then some (Jv.jobj JvObj.nil, r2)
          else
            match jvMembers (jvValue f) (f + 1) (c2 :: r2) with
            | some (ms, rest) => some (Jv.jobj ms, rest)
            | none => none
      else if c = '"' then
        match jvString (r.length + 1) r with
        | some (s, rest) => some (Jv.jstr s, rest)
        | none => none
      else if c = 't' then
        if leads ('r' :: 'u' :: 'e' :: []) r then some (Jv.jbool true, r.drop 3) else none
      else if c = 'f' then
        if leads ('a' :: 'l' :: 's' :: 'e' :: []) r then some (Jv.jbool false, r.drop 4)
        else none
      else if c = 'n' then
        if leads ('u' :: 'l' :: 'l' :: []) r then some (Jv.jnull, r.drop 3) else none
      else
        match jvNumber (c :: r) with
        | some (lex, rest) => some (Jv.jnum lex, rest)
        | none => none

/-- `JSON.parse(s)`: the parsed value exactly when the parse succeeds,
`none` exactly when it throws.  Leading and trailing JSON whitespace is
allowed around one complete value and nothing else. -/
def jsonParse (cs : List Char) : Option Jv :=
  match jvValue (2 * cs.length + 2) (skipJw cs) with
  | some (v, rest) => if (skipJw rest).isEmpty then some v else none
  | none => none

/-- A line as the final `script.map(...)` actually returns it at runtime:
the text is whatever the element's `text` property held — `none` models the
JavaScript `undefined` of a missing property, `some` a JSON value copied
verbatim. -/
structure JSLine where
  speaker : Speaker
  text : Option Jv
deriving DecidableEq

/-- A property of a parsed object: the last occurrence of a duplicated key
wins, as in JavaScript object construction. -/
def jfield (key : List Char) : JvObj → Option Jv
  | JvObj.nil => none
  | JvObj.cons k v rest =>
    match jfield key rest with
    | some w => some w
    | none => if k = key then some v else none

/-- `s.speaker === 'Host' || s.speaker === config.hostName ||
s.speaker === 'Speaker 1'`: strict equality, false on any non-string
value and on `undefined`. -/
def jsSpeakerIsHost (config : PodcastConfig) : Option Jv → Bool
  | some (Jv.jstr s) =>
    s == hostLabel || s == config.hostName || s == speaker1Label
  | _ => false

/-- One array element through the final mapper in conversation mode:
reading a property of `null` throws a `TypeError` (`none`); a non-object
element has `undefined` properties, giving an Expert line with `undefined`
text; an object element gives its speaker comparison and its raw `text`
property. -/
def jsElemLine (config : PodcastConfig) : Jv → Option JSLine
  | Jv.jnull => none
  | Jv.jobj fields =>
    some ⟨if jsSpeakerIsHost config (jfield speakerKey fields) then Speaker.Host
          else Speaker.Expert,
      jfield textKey fields⟩
  | _ => some ⟨Speaker.Expert, none⟩

/-- The final mapper over the elements of a parsed array; `none` when any
element makes it throw. -/
def jsLinesOf (config : PodcastConfig) : JvList → Option (List JSLine)
  | JvList.nil => some []
  | JvList.cons v vs =>
    match jsElemLine config v, jsLinesOf config vs with
    | some l, some ls => some (l :: ls)
    | _, _ => none

/-- `script.map(...)` applied to whatever value `JSON.parse` returned: a
`TypeError` when the value is not an array (`.map` is not a function) or
when an element is `null`. -/
def jsMapResult (config : PodcastConfig) : Jv → Except ScriptError (List JSLine)
  | Jv.jarr elems =>
    match jsLinesOf config elems with
    | some ls => Except.ok ls
    | none => Except.error ScriptError.typeThrown
  | _ => Except.error ScriptError.typeThrown

/-- A `{speaker, text}` line with a string text — as the monologue split and
every fallback tier produce — viewed as the runtime line it maps to. -/
def embedLine (l : ScriptLine) : JSLine :=
  ⟨l.speaker, some (Jv.jstr l.text)⟩

/-- The parse of `generatePodcastScript` over the full domain of
`JSON.parse`: in conversation mode the strict tier accepts any valid JSON
and pipes the parsed value through `script.map(...)` unchecked — the source
performs no shape validation — and only a thrown parse error reaches the
fallback ladder of pattern recovery, the degenerate Expert block, and
`ScriptParseError`.  Agrees with `generateScriptFromResponse` on the domains
where that restricted model is faithful: canonical serializations and
inputs that are not valid JSON. -/
def generateScriptJS (config : PodcastConfig) (responseText : List Char) :
    Except ScriptError (List JSLine) :=
  if config.mode = Mode.monologue then
    Except.ok ((mapScript config (monologueObjs responseText)).map embedLine)
  else
    let jsonStr := fenceStrip responseText
    match jsonParse jsonStr with
    | some v => jsMapResult config v
    | none =>
      let ms := patternMatches jsonStr
      if !ms.isEmpty then
        Except.ok ((mapScript config
          (ms.map (fun m => (⟨m.speaker, unescapeText m.text⟩ : RawObj)))).map embedLine)
      else if 50 < jsonStr.length then
        Except.ok ((mapScript config ((⟨expertLabel, jsonStr⟩ : RawObj) :: [])).map embedLine)
      else
        Except.error ScriptError.scriptParse

/-! ## Helper results on the manual unescape -/

/-- What remains after the first replacement has undone the quote escapes:
backslash and newline still escaped, quotes bare. -/
def escNB : List Char → List Char
  | [] => []
  | c :: rest =>
    if c = '\\' then '\\' :: '\\' :: escNB rest
    else if c = '\n' then '\\' :: 'n' :: escNB rest
    else c :: escNB rest

/-- What remains after the second replacement has undone the newline escapes:
only the backslash still escaped. -/
def escB : List Char → List Char
  | [] => []
  | c :: rest =>
    if c = '\\' then '\\' :: '\\' :: escB rest
    else c :: escB rest

theorem replQuote_cons_ne {c : Char} (X : List Char) (h : c ≠ '\\') :
    replQuote (c :: X) = c :: replQuote X := by
  cases X with
  | nil => simp [replQuote]
  | cons d tl => simp [replQuote, h]

theorem replQuote_cons_back (X : List Char) (h : X = [] ∨ X.head? ≠ some '"') :
    replQuote ('\\' :: X) = '\\' :: replQuote X := by
  cases X with
  | nil => simp [replQuote]
  | cons d tl =>
    have hd : d ≠ '"' := by
      rcases h with h | h
      · simp at h
      · simpa using h
    simp [replQuote, hd]

theorem replNl_cons_ne {c : Char} (X : List Char) (h : c ≠ '\\') :
    replNl (c :: X) = c :: replNl X := by
  cases X with
  | nil => simp [replNl]
  | cons d tl => simp [replNl, h]

theorem replNl_cons_back (X : List Char) (h : X = [] ∨ X.head? ≠ some 'n') :
    replNl ('\\' :: X) = '\\' :: replNl X := by
  cases X with
  | nil => simp [replNl]
  | cons d tl =>
    have hd : d ≠ 'n' := by
      rcases h with h | h
      · simp at h
      · simpa using h
    simp [replNl, hd]

theorem replBack_cons_ne {c : Char} (X : List Char) (h : c ≠ '\\') :
    replBack (c :: X) = c :: replBack X := by
  cases X with
  | nil => simp [replBack]
  | cons d tl => simp [replBack, h]

theorem escapeJson_head_ne_quote (t : List Char) :
    escapeJson t = [] ∨ (escapeJson t).head? ≠ some '"' := by
  cases t with
  | nil => exact Or.inl rfl
  | cons c rest =>
    right
    by_cases h1 : c = '"'
    · simp [escapeJson, h1]
    · by_cases h2 : c = '\\'
      · simp [escapeJson, h1, h2]
      · by_cases h3 : c = '\n'
        · simp [escapeJson, h1, h2, h3]
        · simp [escapeJson, h1, h2, h3, h1]

theorem replQuote_escapeJson (t : List Char) :
    replQuote (escapeJson t) = escNB t := by
  induction t with
  | nil => simp [escapeJson, escNB, replQuote]
  | cons c rest ih =>
    by_cases h1 : c = '"'
    · subst h1
      rw [show escapeJson ('"' :: rest) = '\\' :: '"' :: escapeJson rest by simp [escapeJson]]
      rw [show replQuote ('\\' :: '"' :: escapeJson rest) = '"' :: replQuote (escapeJson rest) by
        simp [replQuote]]
      simp [escNB, ih]
    · by_cases h2 : c = '\\'
      · subst h2
        rw [show escapeJson ('\\' :: rest) = '\\' :: '\\' :: escapeJson rest by simp [escapeJson]]
        rw [show replQuote ('\\' :: '\\' :: escapeJson rest) =
            '\\' :: replQuote ('\\' :: escapeJson rest) by simp [replQuote]]
        rw [replQuote_cons_back _ (escapeJson_head_ne_quote rest)]
        simp [escNB, ih]
      · by_cases h3 : c = '\n'
        · subst h3
          rw [show escapeJson ('\n' :: rest) = '\\' :: 'n' :: escapeJson rest by
            simp [escapeJson]]
          rw [show replQuote ('\\' :: 'n' :: escapeJson rest) =
              '\\' :: replQuote ('n' :: escapeJson rest) by simp [replQuote]]
          rw [replQuote_cons_ne _ (by decide)]
          simp [escNB, ih]
        · rw [show escapeJson (c :: rest) = c :: escapeJson rest by simp [escapeJson, h1, h2, h3]]
          rw [replQuote_cons_ne _ h2]
          simp [escNB, h2, h3, ih]

theorem noBackNl_tail {c : Char} {rest : List Char}
    (h : noBackNl (c :: rest) = true) : noBackNl rest = true := by
  cases rest with
  | nil => rfl
  | cons d tl =>
    simp only [noBackNl, Bool.and_eq_true] at h
    exact h.2

theorem noBackNl_head {d : Char} {r : List Char}
    (h : noBackNl ('\\' :: d :: r) = true) : d ≠ 'n' := by
  simp only [noBackNl, Bool.and_eq_true] at h
  intro hd
  have := h.1
  simp [hd] at this

theorem escNB_head_ne_n (t : List Char) (h : noBackNl ('\\' :: t) = true) :
    escNB t = [] ∨ (escNB t).head? ≠ some 'n' := by
  cases t with
  | nil => exact Or.inl rfl
  | cons c rest =>
    right
    by_cases h2 : c = '\\'
    · simp [escNB, h2]
    · by_cases h3 : c = '\n'
      · simp [escNB, h2, h3]
      · have hn : c ≠ 'n' := noBackNl_head h
        simp [escNB, h2, h3, hn]

theorem replNl_escNB (t : List Char) (h : noBackNl t = true) :
    replNl (escNB t) = escB t := by
  induction t with
  | nil => simp [escNB, escB, replNl]
  | cons c rest ih =>
    have hrest := noBackNl_tail h
    by_cases h2 : c = '\\'
    · subst h2
      rw [show escNB ('\\' :: rest) = '\\' :: '\\' :: escNB rest by simp [escNB]]
      rw [show replNl ('\\' :: '\\' :: escNB rest) =
          '\\' :: replNl ('\\' :: escNB rest) by simp [replNl]]
      rw [replNl_cons_back _ (escNB_head_ne_n rest h)]
      simp [escB, ih hrest]
    · by_cases h3 : c = '\n'
      · subst h3
        rw [show escNB ('\n' :: rest) = '\\' :: 'n' :: escNB rest by simp [escNB]]
        rw [show replNl ('\\' :: 'n' :: escNB rest) = '\n' :: replNl (escNB rest) by
          simp [replNl]]
        simp [escB, ih hrest]
      · rw [show escNB (c :: rest) = c :: escNB rest by simp [escNB, h2, h3]]
        rw [replNl_cons_ne _ h2]
        simp [escB, h2, ih hrest]

theorem replBack_escB (t : List Char) : replBack (escB t) = t := by
  induction t with
  | nil => simp [escB, replBack]
  | cons c rest ih =>
    by_cases h2 : c = '\\'
    · subst h2
      rw [show escB ('\\' :: rest) = '\\' :: '\\' :: escB rest by simp [escB]]
      rw [show replBack ('\\' :: '\\' :: escB rest) = '\\' :: replBack (escB rest) by
        simp [replBack]]
      simp [ih]
    · rw [show escB (c :: rest) = c :: escB rest by simp [escB, h2]]
      rw [replBack_cons_ne _ h2]
      simp [ih]

/-- The escape/unescape round trip on texts with no backslash right before an
`n`; shared by the pattern-recovery results. -/
theorem unescape_escape_of_noBackNl (t : List Char) (h : noBackNl t = true) :
    unescapeText (escapeJson t) = t := by
  rw [unescapeText, replQuote_escapeJson, replNl_escNB t h, replBack_escB]

/-- Claim C3, counterexample: for the original text `\n` (a backslash
followed by the letter `n`), whose JSON escape is `\\n`, the sequential
replacements do not reproduce the original characters: the second
replacement wrongly turns the tail `\n` of the escaped pair into a real
newline. -/
theorem c3_unescape_exact_inverse_cex :
    unescapeText (escapeJson ('\\' :: 'n' :: [])) ≠ '\\' :: 'n' :: [] := by
  decide

/-- Claim C3 (amended): on any recovered text field whose original characters
never have a backslash immediately followed by the letter `n`, the sequential
replacements `\"→"`, `\n→newline`, `\\→\` are the exact inverse of the JSON
string escaping applied before truncation. -/
theorem c3_unescape_exact_inverse (t : List Char) (h : noBackNl t = true) :
    unescapeText (escapeJson t) = t :=
  unescape_escape_of_noBackNl t h

/-- Witness for C3 at a text containing an escaped quote, an escaped
backslash and an escaped newline. -/
theorem c3_unescape_exact_inverse_witness :
    noBackNl ('a' :: '\\' :: 'b' :: '"' :: 'c' :: '\n' :: []) = true ∧
    unescapeText (escapeJson ('a' :: '\\' :: 'b' :: '"' :: 'c' :: '\n' :: [])) =
      'a' :: '\\' :: 'b' :: '"' :: 'c' :: '\n' :: [] :=
  ⟨by decide, c3_unescape_exact_inverse _ (by decide)⟩

/-- Claim C7: the line mapper keeps every line (the output has the same
length), forces `Narrator` in monologue mode, and in conversation mode maps
a line to `Host` exactly when its label is the literal `Host`, the configured
host name, or `Speaker 1`, every other label going to `Expert`. -/
theorem c7_line_mapper (config : PodcastConfig) (objs : List RawObj) (i : Nat)
    (h : i < objs.length) :
    (mapScript config objs).length = objs.length ∧
    ((mapScript config objs).getD i ⟨Speaker.Expert, []⟩).text = (objs.getD i ⟨[], []⟩).text ∧
    (config.mode = Mode.monologue →
      ((mapScript config objs).getD i ⟨Speaker.Expert, []⟩).speaker = Speaker.Narrator) ∧
    (config.mode = Mode.conversation →
      (((mapScript config objs).getD i ⟨Speaker.Expert, []⟩).speaker = Speaker.Host ↔
        ((objs.getD i ⟨[], []⟩).speaker = hostLabel ∨
         (objs.getD i ⟨[], []⟩).speaker = config.hostName ∨
         (objs.getD i ⟨[], []⟩).speaker = speaker1Label))) ∧
    (config.mode = Mode.conversation →
      (((mapScript config objs).getD i ⟨Speaker.Expert, []⟩).speaker = Speaker.Host ∨
       ((mapScript config objs).getD i ⟨Speaker.Expert, []⟩).speaker = Speaker.Expert)) := by
  have hlen : (mapScript config objs).length = objs.length := by simp [mapScript]
  set o : RawObj := objs.get ⟨i, h⟩ with ho_def
  have ho : objs[i]? = some o := by
    rw [List.getElem?_eq_getElem h]
    rfl
  have hm : (mapScript config objs)[i]? = some (mapLine config o) := by
    simp [mapScript, List.getElem?_map, ho]
  have hd1 : (mapScript config objs).getD i ⟨Speaker.Expert, []⟩ = mapLine config o := by
    simp [List.getD, hm]
  have hd2 : objs.getD i ⟨[], []⟩ = o := by simp [List.getD, ho]
  rw [hd1, hd2]
  refine ⟨hlen, by simp [mapLine], ?_, ?_, ?_⟩
  · intro hmode
    simp [mapLine, hmode]
  · intro hmode
    have hne : ¬ config.mode = Mode.monologue := by rw [hmode]; decide
    by_cases hcond : o.speaker = hostLabel ∨ o.speaker = config.hostName ∨
        o.speaker = speaker1Label
    · simp [mapLine, hne, hcond]
    · simp [mapLine, hne, hcond]
  · intro hmode
    have hne : ¬ config.mode = Mode.monologue := by rw [hmode]; decide
    by_cases hcond : o.speaker = hostLabel ∨ o.speaker = config.hostName ∨
        o.speaker = speaker1Label
    · exact Or.inl (by simp [mapLine, hne, hcond])
    · exact Or.inr (by simp [mapLine, hne, hcond])

/-- Witness for C7 on a one-line script labelled `Speaker 1` under the sample
conversation configuration. -/
theorem c7_line_mapper_witness :
    (0 : Nat) < ([⟨speaker1Label, 'x' :: []⟩] : List RawObj).length ∧
    ((mapScript convConfig [⟨speaker1Label, 'x' :: []⟩]).length =
        ([⟨speaker1Label, 'x' :: []⟩] : List RawObj).length ∧
      ((mapScript convConfig [⟨speaker1Label, 'x' :: []⟩]).getD 0 ⟨Speaker.Expert, []⟩).text =
        (([⟨speaker1Label, 'x' :: []⟩] : List RawObj).getD 0 ⟨[], []⟩).text ∧
      (convConfig.mode = Mode.monologue →
        ((mapScript convConfig [⟨speaker1Label, 'x' :: []⟩]).getD 0
            ⟨Speaker.Expert, []⟩).speaker = Speaker.Narrator) ∧
      (convConfig.mode = Mode.conversation →
        (((mapScript convConfig [⟨speaker1Label, 'x' :: []⟩]).getD 0
              ⟨Speaker.Expert, []⟩).speaker = Speaker.Host ↔
          ((([⟨speaker1Label, 'x' :: []⟩] : List RawObj).getD 0 ⟨[], []⟩).speaker = hostLabel ∨
           (([⟨speaker1Label, 'x' :: []⟩] : List RawObj).getD 0 ⟨[], []⟩).speaker =
             convConfig.hostName ∨
           (([⟨speaker1Label, 'x' :: []⟩] : List RawObj).getD 0 ⟨[], []⟩).speaker =
             speaker1Label))) ∧
      (convConfig.mode = Mode.conversation →
        (((mapScript convConfig [⟨speaker1Label, 'x' :: []⟩]).getD 0
              ⟨Speaker.Expert, []⟩).speaker = Speaker.Host ∨
         ((mapScript convConfig [⟨speaker1Label, 'x' :: []⟩]).getD 0
              ⟨Speaker.Expert, []⟩).speaker = Speaker.Expert))) :=
  ⟨by decide, c7_line_mapper convConfig [⟨speaker1Label, 'x' :: []⟩] 0 (by decide)⟩

deriving instance DecidableEq for Except

/-- Claim C5, counterexample: the raw response `[{"a": 1}]` contains no
recoverable `{speaker, text}` object (the regex finds nothing) and is only
ten characters long, yet the call does not fail with `ScriptParseError`: the
text is valid JSON, so `JSON.parse` succeeds — the source never re-checks
the shape — and the pipeline returns one line whose speaker defaults to
Expert and whose text is the JavaScript `undefined`. -/
theorem c5_short_unrecoverable_fails_cex :
    patternMatches (fenceStrip "[\x7b\"a\": 1\x7d]".toList) = [] ∧
    (fenceStrip "[\x7b\"a\": 1\x7d]".toList).length ≤ 50 ∧
    generateScriptJS convConfig "[\x7b\"a\": 1\x7d]".toList =
      Except.ok ((⟨Speaker.Expert, none⟩ : JSLine) :: []) := by
  refine ⟨by decide, by decide, by decide⟩

/-- Claim C5 (amended): in conversation mode, when the fence-stripped text
is not valid JSON (so `JSON.parse` throws), the pattern recovery finds
nothing, and the text is at most 50 characters long, the pipeline fails with
the `ScriptParseError` instead of returning an empty script.  The
JSON-invalidity condition is necessary: on valid JSON of the wrong shape the
call returns a script with undefined fields instead of failing. -/
theorem c5_short_unrecoverable_fails (config : PodcastConfig) (raw : List Char)
    (hmode : config.mode = Mode.conversation)
    (hjson : jsonParse (fenceStrip raw) = none)
    (hpat : patternMatches (fenceStrip raw) = [])
    (hlen : (fenceStrip raw).length ≤ 50) :
    generateScriptJS config raw = Except.error ScriptError.scriptParse := by
  simp only [generateScriptJS, hmode]
  rw [if_neg (by decide)]
  rw [hjson, hpat]
  rw [show (([] : List RawObj).isEmpty) = true from rfl]
  simp only [Bool.not_true, Bool.false_eq_true, if_false]
  rw [if_neg (by omega)]

/-- Witness for C5 on the five-character response `hello`, not valid
JSON. -/
theorem c5_short_unrecoverable_fails_witness :
    convConfig.mode = Mode.conversation ∧
    jsonParse (fenceStrip ('h' :: 'e' :: 'l' :: 'l' :: 'o' :: [])) = none ∧
    patternMatches (fenceStrip ('h' :: 'e' :: 'l' :: 'l' :: 'o' :: [])) = [] ∧
    (fenceStrip ('h' :: 'e' :: 'l' :: 'l' :: 'o' :: [])).length ≤ 50 ∧
    generateScriptJS convConfig ('h' :: 'e' :: 'l' :: 'l' :: 'o' :: []) =
      Except.error ScriptError.scriptParse :=
  ⟨by decide, by decide, by decide, by decide,
    c5_short_unrecoverable_fails convConfig ('h' :: 'e' :: 'l' :: 'l' :: 'o' :: [])
      (by decide) (by decide) (by decide) (by decide)⟩

/-- A conversation configuration whose host display name is the literal
`Expert`; it makes the degenerate fallback line map to `Host`. -/
def expertHostConfig : PodcastConfig :=
  ⟨expertLabel, 'B' :: 'o' :: 'b' :: [],
   Tone.Professional, Mode.conversation, TargetLanguage.English⟩

/-- Claim C6, counterexamples, one per flaw.  First: when the configured
host name is the literal `Expert`, the degenerate fallback line (fifty-one
`a`s: invalid JSON, no pattern match, longer than the threshold) is
attributed to the `Host` role, not the `Expert` role, because the mapper
compares the fallback label against `config.hostName`.  Second: zero
recoverable objects do not imply the fallback runs — on the valid JSON
`[{"speaker": "Host", "text": "hi", "extra": {"a": 1}}]` (54 characters, no
regex match because of the extra member) `JSON.parse` succeeds and the call
returns the parsed Host line, not the single verbatim Expert block. -/
theorem c6_degenerate_fallback_cex :
    (generateScriptJS expertHostConfig (List.replicate 51 'a') =
      Except.ok ((⟨Speaker.Host, some (Jv.jstr (List.replicate 51 'a'))⟩ : JSLine) :: [])) ∧
    (patternMatches (fenceStrip
        "[\x7b\"speaker\": \"Host\", \"text\": \"hi\", \"extra\": \x7b\"a\": 1\x7d\x7d]".toList) = [] ∧
      50 < (fenceStrip
        "[\x7b\"speaker\": \"Host\", \"text\": \"hi\", \"extra\": \x7b\"a\": 1\x7d\x7d]".toList).length ∧
      generateScriptJS convConfig
          "[\x7b\"speaker\": \"Host\", \"text\": \"hi\", \"extra\": \x7b\"a\": 1\x7d\x7d]".toList =
        Except.ok ((⟨Speaker.Host, some (Jv.jstr ('h' :: 'i' :: []))⟩ : JSLine) :: [])) := by
  refine ⟨by decide, by decide, by decide, by decide⟩

/-- Claim C6 (amended): in conversation mode, when the fence-stripped text
is not valid JSON (so `JSON.parse` throws), pattern recovery finds nothing,
and the text is longer than 50 characters, the pipeline returns exactly one
line whose text is the entire fence-stripped text verbatim, attributed to
`Expert` provided the configured host name is not the literal `Expert`
(with that host name the line is attributed to `Host`).  On valid JSON the
fallback is never reached, whatever the shape. -/
theorem c6_degenerate_fallback (config : PodcastConfig) (raw : List Char)
    (hmode : config.mode = Mode.conversation)
    (hhost : config.hostName ≠ expertLabel)
    (hjson : jsonParse (fenceStrip raw) = none)
    (hpat : patternMatches (fenceStrip raw) = [])
    (hlen : 50 < (fenceStrip raw).length) :
    generateScriptJS config raw =
      Except.ok ((⟨Speaker.Expert, some (Jv.jstr (fenceStrip raw))⟩ : JSLine) :: []) := by
  simp only [generateScriptJS, hmode]
  rw [if_neg (by decide)]
  rw [hjson, hpat]
  rw [show (([] : List RawObj).isEmpty) = true from rfl]
  simp only [Bool.not_true, Bool.false_eq_true, if_false]
  rw [if_pos hlen]
  simp only [mapScript, List.map_cons, List.map_nil, mapLine, embedLine, hmode]
  rw [if_neg (by decide)]
  rw [if_neg ?_]
  intro h
  rcases h with h | h | h
  · exact absurd h (by decide)
  · exact hhost h.symm
  · exact absurd h (by decide)

/-- Witness for C6 on fifty-one `a`s under the sample conversation
configuration. -/
theorem c6_degenerate_fallback_witness :
    convConfig.mode = Mode.conversation ∧
    convConfig.hostName ≠ expertLabel ∧
    jsonParse (fenceStrip (List.replicate 51 'a')) = none ∧
    patternMatches (fenceStrip (List.replicate 51 'a')) = [] ∧
    50 < (fenceStrip (List.replicate 51 'a')).length ∧
    generateScriptJS convConfig (List.replicate 51 'a') =
      Except.ok ((⟨Speaker.Expert,
        some (Jv.jstr (fenceStrip (List.replicate 51 'a')))⟩ : JSLine) :: []) :=
  ⟨by decide, by decide, by decide, by decide, by decide,
    c6_degenerate_fallback convConfig (List.replicate 51 'a') (by decide) (by decide)
      (by decide) (by decide) (by decide)⟩

/-- Claim C10: in conversation mode, a response whose fence-stripped text
strict-parses to the empty JSON array makes the pipeline return an empty
script without any error: the strict tier succeeds, so no fallback tier and
no `ScriptParseError` is reached. -/
theorem c10_empty_array_ok (config : PodcastConfig) (raw : List Char)
    (hmode : config.mode = Mode.conversation)
    (hstrict : strictParseScript (fenceStrip raw) = some []) :
    generateScriptFromResponse config raw = Except.ok [] := by
  have hne : ¬ config.mode = Mode.monologue := by rw [hmode]; decide
  simp [generateScriptFromResponse, scriptObjs, hne, hstrict, mapScript]

/-- Witness for C10 on the literal response `[]`. -/
theorem c10_empty_array_ok_witness :
    convConfig.mode = Mode.conversation ∧
    strictParseScript (fenceStrip ('[' :: ']' :: [])) = some [] ∧
    generateScriptFromResponse convConfig ('[' :: ']' :: []) = Except.ok [] :=
  ⟨by decide, by decide, c10_empty_array_ok convConfig _ (by decide) (by decide)⟩

/-! ## Helper results on trimming -/

theorem head_dropWhile_not {p : Char → Bool} {l : List Char} {c : Char} {t : List Char}
    (h : l.dropWhile p = c :: t) : p c = false := by
  induction l with
  | nil => simp at h
  | cons a l ih =>
    by_cases hp : p a
    · rw [List.dropWhile_cons_of_pos hp] at h
      exact ih h
    · rw [List.dropWhile_cons_of_neg hp] at h
      cases h
      simpa using hp

theorem dropWhile_idem {p : Char → Bool} (l : List Char) :
    (l.dropWhile p).dropWhile p = l.dropWhile p := by
  cases h : l.dropWhile p with
  | nil => rfl
  | cons c t =>
    exact List.dropWhile_cons_of_neg (by simp [head_dropWhile_not h])

theorem trim_eq_nil_iff (s : List Char) : trim s = [] ↔ ∀ c ∈ s, wsChar c = true := by
  rw [trim]
  simp only [List.reverse_eq_nil_iff, List.dropWhile_eq_nil_iff, List.mem_reverse]
  constructor
  · intro h c hc
    have := List.takeWhile_append_dropWhile (p := wsChar) (l := s)
    rw [← this] at hc
    rcases List.mem_append.mp hc with hc | hc
    · exact List.mem_takeWhile_imp hc
    · exact h c hc
  · intro h c hc
    exact h c (List.dropWhile_subset _ hc)

theorem reverse_trim (s : List Char) :
    (trim s).reverse = ((s.dropWhile wsChar).reverse).dropWhile wsChar := by
  rw [trim, List.reverse_reverse]

theorem dropWhile_trim (s : List Char) : (trim s).dropWhile wsChar = trim s := by
  cases h : trim s with
  | nil => rfl
  | cons c t =>
    have hc : wsChar c = false := by
      have h2 := List.takeWhile_append_dropWhile (p := wsChar)
        (l := (s.dropWhile wsChar).reverse)
      have h3 : s.dropWhile wsChar = trim s ++ ((s.dropWhile wsChar).reverse.takeWhile
          wsChar).reverse := by
        have := congrArg List.reverse h2
        rw [List.reverse_append, List.reverse_reverse, ← reverse_trim,
          List.reverse_reverse] at this
        exact this.symm
      rw [h] at h3
      exact head_dropWhile_not (by rw [h3]; rfl)
    exact List.dropWhile_cons_of_neg (by simp [hc])

theorem trim_idem (s : List Char) : trim (trim s) = trim s := by
  rw [trim, dropWhile_trim, reverse_trim, dropWhile_idem, ← reverse_trim,
    List.reverse_reverse]

/-- Claim C9, counterexample: in conversation mode the strict tier accepts
`[{"speaker": "Host", "text": ""}]` and the returned script contains a line
whose text is empty (so empty after trimming): the conversation tiers never
re-validate text non-emptiness. -/
theorem c9_text_nonempty_cex :
    generateScriptFromResponse convConfig
        "[\x7b\"speaker\": \"Host\", \"text\": \"\"\x7d]".toList =
      Except.ok (⟨Speaker.Host, []⟩ :: []) ∧
    trim (⟨Speaker.Host, []⟩ : ScriptLine).text = [] := by
  constructor
  · decide
  · decide

/-- Claim C9 (amended): every script line produced by the monologue path has
text that is non-empty after trimming; conversation-mode scripts can carry
lines with empty text. -/
theorem c9_mono_text_nonempty (config : PodcastConfig) (raw : List Char)
    (lines : List ScriptLine) (hmode : config.mode = Mode.monologue)
    (hok : generateScriptFromResponse config raw = Except.ok lines) :
    ∀ line ∈ lines, trim line.text ≠ [] := by
  have hlines : lines = mapScript config (monologueObjs raw) := by
    simp only [generateScriptFromResponse, scriptObjs, hmode, if_pos] at hok
    cases hok
    rfl
  subst hlines
  intro line hline
  obtain ⟨o, ho, rfl⟩ := List.mem_map.mp hline
  obtain ⟨p, hp, rfl⟩ := List.mem_map.mp ho
  have hkeep := (List.mem_filter.mp hp).2
  have htr : trim p ≠ [] := by
    intro hnil
    simp [hnil] at hkeep
  have htext :
      (mapLine config ⟨'N' :: 'a' :: 'r' :: 'r' :: 'a' :: 't' :: 'o' :: 'r' :: [],
        trim p⟩).text = trim p := by
    simp [mapLine]
  rw [htext, trim_idem]
  exact htr

/-- Witness for C9 on the monologue response `Hi`. -/
theorem c9_mono_text_nonempty_witness :
    monoConfig.mode = Mode.monologue ∧
    generateScriptFromResponse monoConfig ('H' :: 'i' :: []) =
      Except.ok (⟨Speaker.Narrator, 'H' :: 'i' :: []⟩ :: []) ∧
    ∀ line ∈ (⟨Speaker.Narrator, 'H' :: 'i' :: []⟩ : ScriptLine) :: [],
      trim line.text ≠ [] :=
  ⟨by decide, by decide,
    c9_mono_text_nonempty monoConfig ('H' :: 'i' :: []) _ (by decide) (by decide)⟩

/-! ## Helper results on the monologue split -/

theorem lastNlIdx_lt {l : List Char} {i : Nat} (h : lastNlIdx l = some i) :
    i < l.length := by
  induction l generalizing i with
  | nil => simp [lastNlIdx] at h
  | cons c cs ih =>
    simp only [lastNlIdx] at h
    cases hl : lastNlIdx cs with
    | some j =>
      rw [hl] at h
      cases h
      have := ih hl
      simp
      omega
    | none =>
      rw [hl] at h
      by_cases hc : (c == '\n') = true
      · rw [if_pos hc] at h
        cases h
        simp
      · rw [if_neg hc] at h
        cases h

theorem take_takeWhile_of_le {p : Char → Bool} :
    ∀ (l : List Char) (j : Nat), j ≤ (l.takeWhile p).length →
      l.take j = (l.takeWhile p).take j := by
  intro l
  induction l with
  | nil => intro j h; simp
  | cons c cs ih =>
    intro j h
    by_cases hp : p c
    · rw [List.takeWhile_cons_of_pos hp] at h ⊢
      cases j with
      | zero => simp
      | succ j =>
        simp only [List.take_succ_cons]
        rw [ih j (by simpa using h)]
    · rw [List.takeWhile_cons_of_neg hp] at h
      have hj : j = 0 := by simpa using h
      subst hj
      simp

theorem sepLen_some_elim {c0 : Char} {rest : List Char} {n : Nat}
    (h : sepLen (c0 :: rest) = some n) :
    c0 = '\n' ∧ ∃ i, lastNlIdx (rest.takeWhile wsChar) = some i ∧ n = i + 2 := by
  simp only [sepLen] at h
  by_cases hc : (c0 == '\n') = true
  · rw [if_pos hc] at h
    cases hl : lastNlIdx (rest.takeWhile wsChar) with
    | some i =>
      rw [hl] at h
      cases h
      exact ⟨by simpa using hc, i, rfl, rfl⟩
    | none =>
      rw [hl] at h
      cases h
  · rw [if_neg hc] at h
    cases h

theorem sepLen_take_ws {s : List Char} {n : Nat} (h : sepLen s = some n) :
    ∀ c ∈ s.take n, wsChar c = true := by
  cases s with
  | nil => simp [sepLen] at h
  | cons c0 rest =>
    obtain ⟨hc0, i, hl, hn⟩ := sepLen_some_elim h
    subst hc0 hn
    intro c hc
    simp only [List.take_succ_cons] at hc
    rcases List.mem_cons.mp hc with rfl | hc
    · decide
    · have hlt := lastNlIdx_lt hl
      have : rest.take (i + 1) = (rest.takeWhile wsChar).take (i + 1) :=
        take_takeWhile_of_le rest (i + 1) (by omega)
      rw [this] at hc
      exact List.mem_takeWhile_imp (List.take_subset _ _ hc)

theorem splitAuxF_chars : ∀ (f : Nat) (s acc frag : List Char),
    frag ∈ splitAuxF f s acc → ∀ c ∈ frag, c ∈ s ∨ c ∈ acc := by
  intro f
  induction f with
  | zero =>
    intro s acc frag hfrag c hc
    simp only [splitAuxF, List.mem_singleton] at hfrag
    subst hfrag
    rcases List.mem_append.mp hc with hc | hc
    · exact Or.inr (by simpa using hc)
    · exact Or.inl hc
  | succ f ih =>
    intro s acc frag hfrag c hc
    cases s with
    | nil =>
      simp only [splitAuxF, List.mem_singleton] at hfrag
      subst hfrag
      exact Or.inr (by simpa using hc)
    | cons c0 cs =>
      cases hsep : sepLen (c0 :: cs) with
      | some n =>
        rw [show splitAuxF (f + 1) (c0 :: cs) acc =
            acc.reverse :: splitAuxF f (List.drop n (c0 :: cs)) [] by
          simp [splitAuxF, hsep]] at hfrag
        rcases List.mem_cons.mp hfrag with rfl | hfrag
        · exact Or.inr (by simpa using hc)
        · rcases ih _ [] frag hfrag c hc with h | h
          · exact Or.inl (List.drop_subset _ _ h)
          · simp at h
      | none =>
        rw [show splitAuxF (f + 1) (c0 :: cs) acc = splitAuxF f cs (c0 :: acc) by
          simp [splitAuxF, hsep]] at hfrag
        rcases ih cs (c0 :: acc) frag hfrag c hc with h | h
        · exact Or.inl (List.mem_cons_of_mem _ h)
        · rcases List.mem_cons.mp h with rfl | h
          · exact Or.inl (List.mem_cons_self _ _)
          · exact Or.inr h

theorem splitAuxF_cover : ∀ (f : Nat) (s acc : List Char) (c : Char),
    (c ∈ s ∨ c ∈ acc) →
    (∃ frag ∈ splitAuxF f s acc, c ∈ frag) ∨ wsChar c = true := by
  intro f
  induction f with
  | zero =>
    intro s acc c hc
    refine Or.inl ⟨acc.reverse ++ s, by simp [splitAuxF], ?_⟩
    rcases hc with hc | hc
    · exact List.mem_append.mpr (Or.inr hc)
    · exact List.mem_append.mpr (Or.inl (by simpa using hc))
  | succ f ih =>
    intro s acc c hc
    cases s with
    | nil =>
      refine Or.inl ⟨acc.reverse, by simp [splitAuxF], ?_⟩
      rcases hc with hc | hc
      · simp at hc
      · simpa using hc
    | cons c0 cs =>
      cases hsep : sepLen (c0 :: cs) with
      | some n =>
        have heq : splitAuxF (f + 1) (c0 :: cs) acc =
            acc.reverse :: splitAuxF f (List.drop n (c0 :: cs)) [] := by
          simp [splitAuxF, hsep]
        rcases hc with hc | hc
        · have hsplit := List.take_append_drop n (c0 :: cs)
          rw [← hsplit] at hc
          rcases List.mem_append.mp hc with hc | hc
          · exact Or.inr (sepLen_take_ws hsep c hc)
          · rcases ih (List.drop n (c0 :: cs)) [] c (Or.inl hc) with ⟨frag, hf, hcf⟩ | h
            · exact Or.inl ⟨frag, by rw [heq]; exact List.mem_cons_of_mem _ hf, hcf⟩
            · exact Or.inr h
        · exact Or.inl ⟨acc.reverse, by rw [heq]; exact List.mem_cons_self _ _,
            by simpa using hc⟩
      | none =>
        have heq : splitAuxF (f + 1) (c0 :: cs) acc = splitAuxF f cs (c0 :: acc) := by
          simp [splitAuxF, hsep]
        rw [heq]
        apply ih cs (c0 :: acc) c
        rcases hc with hc | hc
        · rcases List.mem_cons.mp hc with rfl | hc
          · exact Or.inr (List.mem_cons_self _ _)
          · exact Or.inl hc
        · exact Or.inr (List.mem_cons_of_mem _ hc)

/-- Claim C4, counterexample: on an empty or whitespace-only monologue
response the call returns a valid empty script (`Except.ok []`) and raises no
error, contradicting the claim that this case is surfaced as a failure. -/
theorem c4_monologue_total_cex :
    generateScriptFromResponse monoConfig [] = Except.ok [] ∧
    generateScriptFromResponse monoConfig (' ' :: []) = Except.ok [] ∧
    ∀ e : ScriptError, generateScriptFromResponse monoConfig [] ≠ Except.error e := by
  refine ⟨by decide, by decide, ?_⟩
  intro e
  cases e <;> decide

/-- Claim C4 (amended): in monologue mode the parse never raises an error,
and the returned script is empty exactly when the raw model output is empty
or entirely whitespace — in that case the pipeline silently returns the empty
script instead of failing. -/
theorem c4_monologue_total (config : PodcastConfig) (raw : List Char)
    (hmode : config.mode = Mode.monologue) :
    (∃ lines, generateScriptFromResponse config raw = Except.ok lines) ∧
    (generateScriptFromResponse config raw = Except.ok [] ↔ ∀ c ∈ raw, wsChar c = true) := by
  have hgen : generateScriptFromResponse config raw =
      Except.ok (mapScript config (monologueObjs raw)) := by
    simp [generateScriptFromResponse, scriptObjs, hmode]
  refine ⟨⟨_, hgen⟩, ?_⟩
  rw [hgen]
  constructor
  · intro h
    have hmap : mapScript config (monologueObjs raw) = [] := by
      simpa using h
    have hobjs : monologueObjs raw = [] := by
      simp only [mapScript] at hmap
      exact List.map_eq_nil_iff.mp hmap
    have hfil : (splitMono raw).filter (fun p => !(trim p).isEmpty) = [] := by
      simp only [monologueObjs] at hobjs
      exact List.map_eq_nil_iff.mp hobjs
    intro c hc
    rcases splitAuxF_cover raw.length raw [] c (Or.inl hc) with ⟨frag, hf, hcf⟩ | hws
    · have h2 := List.filter_eq_nil_iff.mp hfil frag hf
      have htrim : trim frag = [] := by
        simpa using h2
      exact (trim_eq_nil_iff frag).mp htrim c hcf
    · exact hws
  · intro hall
    have hfil : (splitMono raw).filter (fun p => !(trim p).isEmpty) = [] := by
      apply List.filter_eq_nil_iff.mpr
      intro frag hf
      have htrim : trim frag = [] := by
        apply (trim_eq_nil_iff frag).mpr
        intro c hc
        rcases splitAuxF_chars raw.length raw [] frag hf c hc with h | h
        · exact hall c h
        · simp at h
      simp [htrim]
    simp [mapScript, monologueObjs, hfil]

/-- Witness for C4 on the monologue response `Hi`. -/
theorem c4_monologue_total_witness :
    monoConfig.mode = Mode.monologue ∧
    ((∃ lines, generateScriptFromResponse monoConfig ('H' :: 'i' :: []) = Except.ok lines) ∧
     (generateScriptFromResponse monoConfig ('H' :: 'i' :: []) = Except.ok [] ↔
       ∀ c ∈ ('H' :: 'i' :: []), wsChar c = true)) :=
  ⟨by decide, c4_monologue_total monoConfig ('H' :: 'i' :: []) (by decide)⟩

/-! ## Splitting a blank-line-joined sequence of paragraphs -/

/-- Paragraphs joined by runs of two or more newlines: the `i`-th gap gets
`ks_i + 2` newlines, so every encodable separator has at least two. -/
def joinParas : List (List Char) → List Nat → List Char
  | [], _ => []
  | p :: [], _ => p
  | p :: ps, ks =>
    p ++ List.replicate (ks.headD 0 + 2) '\n' ++ joinParas ps ks.tail

theorem sepLen_cons_ne {c : Char} (cs : List Char) (h : c ≠ '\n') :
    sepLen (c :: cs) = none := by
  simp [sepLen, h]

theorem splitAuxF_through (p : List Char) :
    ∀ (f : Nat) (t acc : List Char), '\n' ∉ p →
      splitAuxF (p.length + f) (p ++ t) acc = splitAuxF f t (p.reverse ++ acc) := by
  induction p with
  | nil => intro f t acc _; simp
  | cons c p' ih =>
    intro f t acc hnl
    have hc : c ≠ '\n' := fun h => hnl (h ▸ List.mem_cons_self _ _)
    have hlen : (c :: p').length + f = (p'.length + f) + 1 := by
      simp [List.length_cons]
      omega
    rw [hlen]
    rw [show splitAuxF ((p'.length + f) + 1) ((c :: p') ++ t) acc =
        splitAuxF (p'.length + f) (p' ++ t) (c :: acc) by
      simp [splitAuxF, sepLen_cons_ne _ hc]]
    rw [ih f t (c :: acc) (fun h => hnl (List.mem_cons_of_mem _ h))]
    simp

theorem lastNlIdx_eq_none {l : List Char} (h : '\n' ∉ l) : lastNlIdx l = none := by
  induction l with
  | nil => rfl
  | cons c cs ih =>
    have hc : c ≠ '\n' := fun hh => h (hh ▸ List.mem_cons_self _ _)
    have := ih (fun hh => h (List.mem_cons_of_mem _ hh))
    simp [lastNlIdx, this, hc]

theorem lastNlIdx_cons (c : Char) (cs : List Char) :
    lastNlIdx (c :: cs) = match lastNlIdx cs with
      | some i => some (i + 1)
      | none => if c == '\n' then some 0 else none := rfl

theorem lastNlIdx_append_no_nl {b : List Char} (a : List Char) (h : '\n' ∉ b) :
    lastNlIdx (a ++ b) = lastNlIdx a := by
  induction a with
  | nil => simpa using lastNlIdx_eq_none h
  | cons c a' ih =>
    rw [List.cons_append, lastNlIdx_cons, lastNlIdx_cons, ih]

theorem lastNlIdx_replicate (k : Nat) :
    lastNlIdx (List.replicate (k + 1) '\n') = some k := by
  induction k with
  | zero => rfl
  | succ k ih =>
    rw [List.replicate_succ, lastNlIdx_cons, ih]

theorem takeWhile_append_of_all {p : Char → Bool} :
    ∀ (a b : List Char), (∀ c ∈ a, p c = true) →
      (a ++ b).takeWhile p = a ++ b.takeWhile p := by
  intro a
  induction a with
  | nil => intro b _; simp
  | cons c a' ih =>
    intro b h
    have hc : p c = true := h c (List.mem_cons_self _ _)
    simp only [List.cons_append, List.takeWhile_cons_of_pos hc]
    rw [ih b (fun x hx => h x (List.mem_cons_of_mem _ hx))]

theorem takeWhile_append_of_dropWhile_ne {p : Char → Bool} :
    ∀ (a b : List Char), a.dropWhile p ≠ [] →
      (a ++ b).takeWhile p = a.takeWhile p := by
  intro a
  induction a with
  | nil => intro b h; simp at h
  | cons c a' ih =>
    intro b h
    by_cases hc : p c
    · rw [List.dropWhile_cons_of_pos hc] at h
      simp only [List.cons_append, List.takeWhile_cons_of_pos hc]
      rw [ih b h]
    · simp only [List.cons_append]
      rw [List.takeWhile_cons_of_neg hc, List.takeWhile_cons_of_neg hc]

theorem sepLen_sep (k : Nat) (t : List Char) (h : '\n' ∉ t.takeWhile wsChar) :
    sepLen (List.replicate (k + 2) '\n' ++ t) = some (k + 2) := by
  rw [show List.replicate (k + 2) '\n' ++ t =
      '\n' :: (List.replicate (k + 1) '\n' ++ t) by rw [List.replicate_succ]; rfl]
  have hrun : (List.replicate (k + 1) '\n' ++ t).takeWhile wsChar =
      List.replicate (k + 1) '\n' ++ t.takeWhile wsChar :=
    takeWhile_append_of_all _ _ (by
      intro c hc
      rw [List.eq_of_mem_replicate hc]
      decide)
  simp only [sepLen, hrun]
  rw [lastNlIdx_append_no_nl _ h, lastNlIdx_replicate]
  simp

theorem splitAuxF_min : ∀ (f : Nat) (s acc : List Char), s.length ≤ f →
    splitAuxF f s acc = splitAuxF s.length s acc := by
  intro f
  induction f using Nat.strong_induction_on with
  | _ f ih =>
    intro s acc hle
    match f, s with
    | 0, s =>
      have hs : s = [] := List.length_eq_zero.mp (Nat.le_zero.mp hle)
      subst hs
      rfl
    | f + 1, [] => simp [splitAuxF]
    | f + 1, c :: cs =>
      cases hsep : sepLen (c :: cs) with
      | some n =>
        obtain ⟨-, i, -, hn⟩ := sepLen_some_elim hsep
        have h2n : 2 ≤ n := by omega
        have hL : splitAuxF (f + 1) (c :: cs) acc =
            acc.reverse :: splitAuxF f (List.drop n (c :: cs)) [] := by
          simp [splitAuxF, hsep]
        have hR : splitAuxF (c :: cs).length (c :: cs) acc =
            acc.reverse :: splitAuxF cs.length (List.drop n (c :: cs)) [] := by
          simp only [List.length_cons]
          simp [splitAuxF, hsep]
        rw [hL, hR]
        have hdlen : (List.drop n (c :: cs)).length = (c :: cs).length - n := by
          simp
        have hlen1 : (List.drop n (c :: cs)).length ≤ f := by
          rw [hdlen]
          simp at hle ⊢
          omega
        have hlen2 : (List.drop n (c :: cs)).length ≤ cs.length := by
          rw [hdlen]
          simp
          omega
        rw [ih f (by omega) _ [] hlen1, ih cs.length (by simp at hle; omega) _ [] hlen2]
      | none =>
        have hL : splitAuxF (f + 1) (c :: cs) acc = splitAuxF f cs (c :: acc) := by
          simp [splitAuxF, hsep]
        have hR : splitAuxF (c :: cs).length (c :: cs) acc =
            splitAuxF cs.length cs (c :: acc) := by
          simp only [List.length_cons]
          simp [splitAuxF, hsep]
        rw [hL, hR, ih f (by omega) cs (c :: acc) (by simp at hle; omega)]

theorem splitMono_join : ∀ (ps : List (List Char)) (ks : List Nat), ps ≠ [] →
    (∀ p ∈ ps, '\n' ∉ p ∧ trim p ≠ []) →
    splitMono (joinParas ps ks) = ps := by
  intro ps
  induction ps with
  | nil => intro ks h; exact absurd rfl h
  | cons p ps' ih =>
    intro ks _ hps
    have hp := hps p (List.mem_cons_self _ _)
    cases ps' with
    | nil =>
      rw [show joinParas (p :: []) ks = p from rfl]
      rw [show splitMono p = splitAuxF p.length p [] from rfl]
      rw [show splitAuxF p.length p [] = splitAuxF (p.length + 0) (p ++ []) [] by
        simp]
      rw [splitAuxF_through p 0 [] [] hp.1]
      simp [splitAuxF]
    | cons q ps'' =>
      set t := joinParas (q :: ps'') ks.tail with ht
      set k := ks.headD 0 with hk
      have hq := hps q (List.mem_cons_of_mem _ (List.mem_cons_self _ _))
      obtain ⟨X, hX⟩ : ∃ X, t = q ++ X := by
        cases ps'' with
        | nil => exact ⟨[], by simp [ht, joinParas]⟩
        | cons r ps3 =>
          refine ⟨List.replicate (ks.tail.headD 0 + 2) '\n' ++
            joinParas (r :: ps3) ks.tail.tail, ?_⟩
          rw [ht, show joinParas (q :: r :: ps3) ks.tail =
            q ++ List.replicate (ks.tail.headD 0 + 2) '\n' ++
              joinParas (r :: ps3) ks.tail.tail from rfl, List.append_assoc]
      have hdq : q.dropWhile wsChar ≠ [] := by
        intro hnil
        have hall := List.dropWhile_eq_nil_iff.mp hnil
        exact hq.2 ((trim_eq_nil_iff q).mpr hall)
      have htws : '\n' ∉ t.takeWhile wsChar := by
        rw [hX, takeWhile_append_of_dropWhile_ne q X hdq]
        intro hmem
        have : '\n' ∈ q := by
          conv => rw [← List.takeWhile_append_dropWhile (p := wsChar) (l := q)]
          exact List.mem_append.mpr (Or.inl hmem)
        exact hq.1 this
      have hjoin : joinParas (p :: q :: ps'') ks =
          p ++ (List.replicate (k + 2) '\n' ++ t) := by
        rw [show joinParas (p :: q :: ps'') ks =
            p ++ List.replicate (ks.headD 0 + 2) '\n' ++ joinParas (q :: ps'') ks.tail
            from rfl]
        rw [← hk, ← ht, List.append_assoc]
      rw [hjoin]
      rw [show splitMono (p ++ (List.replicate (k + 2) '\n' ++ t)) =
          splitAuxF (p ++ (List.replicate (k + 2) '\n' ++ t)).length
            (p ++ (List.replicate (k + 2) '\n' ++ t)) [] from rfl]
      have hL : (p ++ (List.replicate (k + 2) '\n' ++ t)).length =
          p.length + ((k + 2) + t.length) := by
        simp
      rw [hL, splitAuxF_through p ((k + 2) + t.length) _ [] hp.1]
      have hsep : sepLen ('\n' :: (List.replicate (k + 1) '\n' ++ t)) = some (k + 2) := by
        have := sepLen_sep k t htws
        rwa [show List.replicate (k + 2) '\n' ++ t =
            '\n' :: (List.replicate (k + 1) '\n' ++ t) by
          rw [List.replicate_succ]; rfl] at this
      have hfuel : (k + 2) + t.length = (k + 1 + t.length) + 1 := by omega
      rw [show List.replicate (k + 2) '\n' ++ t =
          '\n' :: (List.replicate (k + 1) '\n' ++ t) by
        rw [List.replicate_succ]; rfl]
      rw [hfuel]
      rw [show splitAuxF ((k + 1 + t.length) + 1) ('\n' :: (List.replicate (k + 1) '\n' ++ t))
          (p.reverse ++ []) = (p.reverse ++ []).reverse ::
            splitAuxF (k + 1 + t.length)
              (List.drop (k + 2) ('\n' :: (List.replicate (k + 1) '\n' ++ t))) [] by
        simp [splitAuxF, hsep]]
      have hdrop : List.drop (k + 2) ('\n' :: (List.replicate (k + 1) '\n' ++ t)) = t := by
        rw [show ('\n' :: (List.replicate (k + 1) '\n' ++ t)) =
            List.replicate (k + 2) '\n' ++ t by rw [List.replicate_succ]; rfl]
        simp
      rw [hdrop, splitAuxF_min (k + 1 + t.length) t [] (by omega)]
      rw [show splitAuxF t.length t [] = splitMono t from rfl]
      rw [ih ks.tail (by simp) (fun r hr => hps r (List.mem_cons_of_mem _ hr))]
      simp

/-- Claim C8: in monologue mode, paragraphs joined by runs of two or more
newlines (blank-line boundaries, any run acting as a single separator) are
recovered one Narrator line per paragraph, in order, each text trimmed; the
raw output `"A\n\nB\n\n\nC"` of the claim is the witness instance. -/
theorem c8_monologue_paragraphs (config : PodcastConfig) (ps : List (List Char))
    (ks : List Nat) (hmode : config.mode = Mode.monologue)
    (hps : ∀ p ∈ ps, '\n' ∉ p ∧ trim p ≠ []) :
    generateScriptFromResponse config (joinParas ps ks) =
      Except.ok (ps.map (fun p => ⟨Speaker.Narrator, trim p⟩)) := by
  have hgen : generateScriptFromResponse config (joinParas ps ks) =
      Except.ok (mapScript config (monologueObjs (joinParas ps ks))) := by
    simp [generateScriptFromResponse, scriptObjs, hmode]
  rw [hgen]
  cases ps with
  | nil =>
    rw [show joinParas [] ks = ([] : List Char) from rfl]
    have h0 : monologueObjs ([] : List Char) = [] := by decide
    simp [h0, mapScript]
  | cons p ps' =>
    rw [show monologueObjs (joinParas (p :: ps') ks) =
        ((splitMono (joinParas (p :: ps') ks)).filter
          (fun q => !(trim q).isEmpty)).map
            (fun q => ⟨'N' :: 'a' :: 'r' :: 'r' :: 'a' :: 't' :: 'o' :: 'r' :: [], trim q⟩)
        from rfl]
    rw [splitMono_join (p :: ps') ks (by simp) hps]
    have hfil : (p :: ps').filter (fun q => !(trim q).isEmpty) = p :: ps' := by
      apply List.filter_eq_self.mpr
      intro q hq
      have hne := (hps q hq).2
      cases htq : trim q with
      | nil => exact absurd htq hne
      | cons a l => rfl
    rw [hfil, mapScript, List.map_map]
    congr 1
    apply List.map_congr_left
    intro q _
    simp [mapLine, hmode]

/-- Witness for C8: the claim's own example `"A\n\nB\n\n\nC"` yields exactly
the three Narrator lines `A`, `B`, `C`. -/
theorem c8_monologue_paragraphs_witness :
    monoConfig.mode = Mode.monologue ∧
    (∀ p ∈ [('A' :: []), ('B' :: []), ('C' :: [])], '\n' ∉ p ∧ trim p ≠ []) ∧
    joinParas [('A' :: []), ('B' :: []), ('C' :: [])] [0, 1] =
      'A' :: '\n' :: '\n' :: 'B' :: '\n' :: '\n' :: '\n' :: 'C' :: [] ∧
    generateScriptFromResponse monoConfig
        ('A' :: '\n' :: '\n' :: 'B' :: '\n' :: '\n' :: '\n' :: 'C' :: []) =
      Except.ok (⟨Speaker.Narrator, 'A' :: []⟩ :: ⟨Speaker.Narrator, 'B' :: []⟩ ::
        ⟨Speaker.Narrator, 'C' :: []⟩ :: []) := by
  refine ⟨by decide, by decide, by decide, ?_⟩
  have h := c8_monologue_paragraphs monoConfig [('A' :: []), ('B' :: []), ('C' :: [])]
    [0, 1] (by decide) (by decide)
  rw [show joinParas [('A' :: []), ('B' :: []), ('C' :: [])] [0, 1] =
      'A' :: '\n' :: '\n' :: 'B' :: '\n' :: '\n' :: '\n' :: 'C' :: [] by decide] at h
  rw [h]
  decide

/-! ## Round trip of the strict parser on the canonical serialization -/

theorem jsonSafe_cons {c : Char} {t : List Char} (h : jsonSafe (c :: t) = true) :
    (32 ≤ c.toNat ∨ c = '\n') ∧ jsonSafe t = true := by
  simp only [jsonSafe, List.all_cons, Bool.and_eq_true] at h
  refine ⟨?_, h.2⟩
  rcases Bool.or_eq_true_iff.mp h.1 with h1 | h1
  · exact Or.inl (by simpa using h1)
  · exact Or.inr (by simpa using h1)

theorem parseStringBody_escape : ∀ (t : List Char) (f : Nat) (r : List Char),
    jsonSafe t = true → (escapeJson t).length < f →
    parseStringBody f (escapeJson t ++ '"' :: r) = some (t, r) := by
  intro t
  induction t with
  | nil =>
    intro f r _ hf
    cases f with
    | zero => omega
    | succ f =>
      rw [show escapeJson [] = [] from rfl, List.nil_append]
      simp [parseStringBody]
  | cons c t' ih =>
    intro f r hsafe hf
    obtain ⟨hc, ht'⟩ := jsonSafe_cons hsafe
    by_cases h1 : c = '"'
    · subst h1
      rw [show escapeJson ('"' :: t') = '\\' :: '"' :: escapeJson t' by simp [escapeJson]]
      rw [show escapeJson ('"' :: t') = '\\' :: '"' :: escapeJson t' by
        simp [escapeJson]] at hf
      cases f with
      | zero => omega
      | succ f =>
        rw [show ('\\' :: '"' :: escapeJson t') ++ '"' :: r =
            '\\' :: '"' :: (escapeJson t' ++ '"' :: r) from rfl]
        rw [show parseStringBody (f + 1) ('\\' :: '"' :: (escapeJson t' ++ '"' :: r)) =
            (match parseStringBody f (escapeJson t' ++ '"' :: r) with
              | some (content, rest) => some ('"' :: content, rest)
              | none => none) by simp [parseStringBody, unescChar]]
        rw [ih f r ht' (by simp at hf; omega)]
    · by_cases h2 : c = '\\'
      · subst h2
        rw [show escapeJson ('\\' :: t') = '\\' :: '\\' :: escapeJson t' by simp [escapeJson]]
        rw [show escapeJson ('\\' :: t') = '\\' :: '\\' :: escapeJson t' by
          simp [escapeJson]] at hf
        cases f with
        | zero => omega
        | succ f =>
          rw [show ('\\' :: '\\' :: escapeJson t') ++ '"' :: r =
              '\\' :: '\\' :: (escapeJson t' ++ '"' :: r) from rfl]
          rw [show parseStringBody (f + 1) ('\\' :: '\\' :: (escapeJson t' ++ '"' :: r)) =
              (match parseStringBody f (escapeJson t' ++ '"' :: r) with
                | some (content, rest) => some ('\\' :: content, rest)
                | none => none) by simp [parseStringBody, unescChar]]
          rw [ih f r ht' (by simp at hf; omega)]
      · by_cases h3 : c = '\n'
        · subst h3
          rw [show escapeJson ('\n' :: t') = '\\' :: 'n' :: escapeJson t' by
            simp [escapeJson]]
          rw [show escapeJson ('\n' :: t') = '\\' :: 'n' :: escapeJson t' by
            simp [escapeJson]] at hf
          cases f with
          | zero => omega
          | succ f =>
            rw [show ('\\' :: 'n' :: escapeJson t') ++ '"' :: r =
                '\\' :: 'n' :: (escapeJson t' ++ '"' :: r) from rfl]
            rw [show parseStringBody (f + 1) ('\\' :: 'n' :: (escapeJson t' ++ '"' :: r)) =
                (match parseStringBody f (escapeJson t' ++ '"' :: r) with
                  | some (content, rest) => some ('\n' :: content, rest)
                  | none => none) by simp [parseStringBody, unescChar]]
            rw [ih f r ht' (by simp at hf; omega)]
        · have hge : 32 ≤ c.toNat := by
            rcases hc with hc | hc
            · exact hc
            · exact absurd hc h3
          rw [show escapeJson (c :: t') = c :: escapeJson t' by
            simp [escapeJson, h1, h2, h3]]
          rw [show escapeJson (c :: t') = c :: escapeJson t' by
            simp [escapeJson, h1, h2, h3]] at hf
          cases f with
          | zero => omega
          | succ f =>
            rw [show (c :: escapeJson t') ++ '"' :: r =
                c :: (escapeJson t' ++ '"' :: r) from rfl]
            have hstep : parseStringBody (f + 1) (c :: (escapeJson t' ++ '"' :: r)) =
                match parseStringBody f (escapeJson t' ++ '"' :: r) with
                | some (content, rest) => some (c :: content, rest)
                | none => none := by
              simp only [parseStringBody, if_neg h1, if_neg h2,
                if_neg (by omega : ¬ c.toNat < 32)]
            rw [hstep, ih f r ht' (by simp at hf; omega)]

theorem skipWs_not_ws {c : Char} (cs : List Char) (h : wsChar c = false) :
    skipWs (c :: cs) = c :: cs :=
  List.dropWhile_cons_of_neg (by simp [h])

theorem skipWs_space (cs : List Char) : skipWs (' ' :: cs) = skipWs cs :=
  List.dropWhile_cons_of_pos (by decide)

theorem parsePairSeq_textPair (f : Nat) (T rest : List Char)
    (hT : jsonSafe T = true) (hf : (escapeJson T).length + 6 ≤ f) :
    parsePairSeq f (' ' :: '"' :: 't' :: 'e' :: 'x' :: 't' :: '"' :: ':' :: ' ' :: '"' ::
        (escapeJson T ++ ('"' :: '}' :: rest))) =
      some ((textKey, JVal.jstr T) :: [], rest) := by
  cases f with
  | zero => omega
  | succ f1 =>
    have hkey : parseStringBody f1 ('t' :: 'e' :: 'x' :: 't' :: '"' ::
        (':' :: ' ' :: '"' :: (escapeJson T ++ ('"' :: '}' :: rest)))) =
        some (textKey, ':' :: ' ' :: '"' :: (escapeJson T ++ ('"' :: '}' :: rest))) := by
      have h := parseStringBody_escape textKey f1
        (':' :: ' ' :: '"' :: (escapeJson T ++ ('"' :: '}' :: rest)))
        (by decide) (by rw [show (escapeJson textKey).length = 4 from by decide]; omega)
      rwa [show escapeJson textKey = textKey from by decide] at h
    have hT1 : parseScalar f1 ('"' :: (escapeJson T ++ ('"' :: '}' :: rest))) =
        some (JVal.jstr T, '}' :: rest) := by
      rw [show parseScalar f1 ('"' :: (escapeJson T ++ ('"' :: '}' :: rest))) =
          (match parseStringBody f1 (escapeJson T ++ ('"' :: '}' :: rest)) with
          | some (s, r) => some (JVal.jstr s, r)
          | none => none) by simp [parseScalar]]
      rw [parseStringBody_escape T f1 _ hT (by omega)]
    simp only [parsePairSeq, skipWs_space]
    rw [skipWs_not_ws _ (by decide)]
    simp only [if_pos rfl, hkey]
    rw [skipWs_not_ws _ (by decide)]
    simp only [if_pos rfl, skipWs_space]
    rw [skipWs_not_ws _ (by decide)]
    rw [hT1]
    rfl

theorem parsePairSeq_obj (f : Nat) (S T rest : List Char)
    (hS : jsonSafe S = true) (hT : jsonSafe T = true)
    (hf : (escapeJson S).length + (escapeJson T).length + 9 ≤ f) :
    parsePairSeq f ('"' :: 's' :: 'p' :: 'e' :: 'a' :: 'k' :: 'e' :: 'r' :: '"' :: ':' :: ' ' ::
        '"' :: (escapeJson S ++ ('"' :: ',' :: ' ' :: '"' :: 't' :: 'e' :: 'x' :: 't' :: '"' ::
          ':' :: ' ' :: '"' :: (escapeJson T ++ ('"' :: '}' :: rest))))) =
      some ((speakerKey, JVal.jstr S) :: (textKey, JVal.jstr T) :: [], rest) := by
  cases f with
  | zero => omega
  | succ f1 =>
    have hkey1 : parseStringBody f1 ('s' :: 'p' :: 'e' :: 'a' :: 'k' :: 'e' :: 'r' :: '"' ::
        (':' :: ' ' :: '"' :: (escapeJson S ++ ('"' :: ',' :: ' ' :: '"' :: 't' :: 'e' :: 'x' ::
          't' :: '"' :: ':' :: ' ' :: '"' :: (escapeJson T ++ ('"' :: '}' :: rest)))))) =
        some (speakerKey, ':' :: ' ' :: '"' :: (escapeJson S ++ ('"' :: ',' :: ' ' :: '"' ::
          't' :: 'e' :: 'x' :: 't' :: '"' :: ':' :: ' ' :: '"' ::
            (escapeJson T ++ ('"' :: '}' :: rest))))) := by
      have h := parseStringBody_escape speakerKey f1 (':' :: ' ' :: '"' ::
        (escapeJson S ++ ('"' :: ',' :: ' ' :: '"' :: 't' :: 'e' :: 'x' :: 't' :: '"' ::
          ':' :: ' ' :: '"' :: (escapeJson T ++ ('"' :: '}' :: rest)))))
        (by decide) (by rw [show (escapeJson speakerKey).length = 7 from by decide]; omega)
      rwa [show escapeJson speakerKey = speakerKey from by decide] at h
    have hS1 : parseScalar f1 ('"' :: (escapeJson S ++ ('"' :: ',' :: ' ' :: '"' :: 't' ::
        'e' :: 'x' :: 't' :: '"' :: ':' :: ' ' :: '"' :: (escapeJson T ++
          ('"' :: '}' :: rest))))) =
        some (JVal.jstr S, ',' :: ' ' :: '"' :: 't' :: 'e' :: 'x' :: 't' :: '"' :: ':' ::
          ' ' :: '"' :: (escapeJson T ++ ('"' :: '}' :: rest))) := by
      rw [show parseScalar f1 ('"' :: (escapeJson S ++ ('"' :: ',' :: ' ' :: '"' :: 't' ::
          'e' :: 'x' :: 't' :: '"' :: ':' :: ' ' :: '"' :: (escapeJson T ++
            ('"' :: '}' :: rest))))) =
          (match parseStringBody f1 (escapeJson S ++ ('"' :: ',' :: ' ' :: '"' :: 't' ::
            'e' :: 'x' :: 't' :: '"' :: ':' :: ' ' :: '"' :: (escapeJson T ++
              ('"' :: '}' :: rest)))) with
          | some (s, r) => some (JVal.jstr s, r)
          | none => none) by simp [parseScalar]]
      rw [show escapeJson S ++ ('"' :: ',' :: ' ' :: '"' :: 't' :: 'e' :: 'x' :: 't' :: '"' ::
          ':' :: ' ' :: '"' :: (escapeJson T ++ ('"' :: '}' :: rest))) =
        escapeJson S ++ '"' :: (',' :: ' ' :: '"' :: 't' :: 'e' :: 'x' :: 't' :: '"' ::
          ':' :: ' ' :: '"' :: (escapeJson T ++ ('"' :: '}' :: rest))) from rfl]
      rw [parseStringBody_escape S f1 _ hS (by omega)]
    simp only [parsePairSeq]
    rw [skipWs_not_ws _ (by decide)]
    simp only [if_pos rfl, hkey1]
    rw [skipWs_not_ws _ (by decide)]
    simp only [if_pos rfl, skipWs_space]
    rw [skipWs_not_ws _ (by decide)]
    rw [hS1]
    simp only []
    rw [skipWs_not_ws _ (by decide)]
    simp only [reduceIte]
    rw [parsePairSeq_textPair f1 T rest hT (by omega)]

theorem objString_norm (o : RawObj) (rest : List Char) :
    objString o ++ rest =
      '{' :: '"' :: 's' :: 'p' :: 'e' :: 'a' :: 'k' :: 'e' :: 'r' :: '"' :: ':' :: ' ' ::
        '"' :: (escapeJson o.speaker ++ ('"' :: ',' :: ' ' :: '"' :: 't' :: 'e' :: 'x' ::
          't' :: '"' :: ':' :: ' ' :: '"' :: (escapeJson o.text ++ ('"' :: '}' :: rest)))) := by
  simp [objString, jsonObjOpen, jsonObjMid, jsonObjClose]

theorem objString_length (o : RawObj) :
    (objString o).length =
      (escapeJson o.speaker).length + (escapeJson o.text).length + 27 := by
  simp [objString, jsonObjOpen, jsonObjMid, jsonObjClose]
  omega

theorem parseObjFlat_obj (f : Nat) (o : RawObj) (rest : List Char)
    (hS : jsonSafe o.speaker = true) (hT : jsonSafe o.text = true)
    (hf : (escapeJson o.speaker).length + (escapeJson o.text).length + 9 ≤ f) :
    parseObjFlat f (objString o ++ rest) =
      some ((speakerKey, JVal.jstr o.speaker) :: (textKey, JVal.jstr o.text) :: [], rest) := by
  rw [objString_norm]
  simp only [parseObjFlat, if_pos rfl]
  rw [skipWs_not_ws _ (by decide)]
  simp only [reduceIte]
  exact parsePairSeq_obj f o.speaker o.text rest hS hT hf

theorem parseObjSeq_space (f : Nat) (X : List Char) :
    parseObjSeq f (' ' :: X) = parseObjSeq f X := by
  cases f with
  | zero => rfl
  | succ f => simp only [parseObjSeq, skipWs_space]

theorem arrBody_cons_append (o : RawObj) (os : List RawObj) (X : List Char) :
    ∃ Y, arrBody (o :: os) ++ X = objString o ++ Y := by
  cases os with
  | nil => exact ⟨X, rfl⟩
  | cons o2 os2 =>
    refine ⟨',' :: ' ' :: (arrBody (o2 :: os2) ++ X), ?_⟩
    rw [show arrBody (o :: o2 :: os2) =
      objString o ++ ',' :: ' ' :: arrBody (o2 :: os2) from rfl]
    simp [List.append_assoc]

theorem skipWs_objString (o : RawObj) (Y : List Char) :
    skipWs (objString o ++ Y) = objString o ++ Y := by
  rw [objString_norm]
  exact skipWs_not_ws _ (by decide)

theorem parseObjSeq_arr : ∀ (objs : List RawObj) (f : Nat) (rest : List Char),
    objs ≠ [] →
    (∀ o ∈ objs, jsonSafe o.speaker = true ∧ jsonSafe o.text = true) →
    (arrBody objs).length + 2 ≤ f →
    parseObjSeq f (arrBody objs ++ ']' :: rest) =
      some (objs.map (fun o => (speakerKey, JVal.jstr o.speaker) ::
        (textKey, JVal.jstr o.text) :: []), rest) := by
  intro objs
  induction objs with
  | nil => intro f rest h; exact absurd rfl h
  | cons o os ih =>
    intro f rest _ hsafe hf
    have ho := hsafe o (List.mem_cons_self _ _)
    cases f with
    | zero => omega
    | succ f1 =>
      cases os with
      | nil =>
        rw [show arrBody (o :: []) = objString o from rfl] at hf ⊢
        have hlen := objString_length o
        simp only [parseObjSeq]
        rw [skipWs_objString o (']' :: rest)]
        rw [parseObjFlat_obj f1 o (']' :: rest) ho.1 ho.2 (by omega)]
        rfl
      | cons o2 os2 =>
        have harr : arrBody (o :: o2 :: os2) ++ ']' :: rest =
            objString o ++ (',' :: ' ' :: (arrBody (o2 :: os2) ++ ']' :: rest)) := by
          rw [show arrBody (o :: o2 :: os2) =
            objString o ++ ',' :: ' ' :: arrBody (o2 :: os2) from rfl]
          simp [List.append_assoc]
        have hlen := objString_length o
        have hlen2 : (arrBody (o :: o2 :: os2)).length =
            (objString o).length + 2 + (arrBody (o2 :: os2)).length := by
          rw [show arrBody (o :: o2 :: os2) =
            objString o ++ ',' :: ' ' :: arrBody (o2 :: os2) from rfl]
          simp
          omega
        rw [harr]
        simp only [parseObjSeq]
        rw [skipWs_objString o _]
        rw [parseObjFlat_obj f1 o _ ho.1 ho.2 (by omega)]
        simp only []
        rw [skipWs_not_ws _ (by decide)]
        simp only [reduceIte]
        rw [parseObjSeq_space f1 _]
        rw [ih f1 rest (by simp) (fun x hx => hsafe x (List.mem_cons_of_mem _ hx))
          (by omega)]
        rfl

theorem parseTopArr_go (f : Nat) (cs r : List Char) (h1 : skipWs cs = '[' :: r)
    (c2 : Char) (r2 : List Char) (hsk : skipWs r = c2 :: r2) (hne : c2 ≠ ']') :
    parseTopArr f cs = parseObjSeq f r := by
  simp only [parseTopArr, h1]
  simp only [if_pos rfl, if_true, hsk]
  rw [if_neg hne]

theorem objsToRaw_pairs : ∀ objs : List RawObj,
    objsToRaw (objs.map (fun o => (speakerKey, JVal.jstr o.speaker) ::
      (textKey, JVal.jstr o.text) :: [])) = some objs := by
  intro objs
  induction objs with
  | nil => rfl
  | cons o os ih =>
    simp only [List.map_cons, objsToRaw, ih]
    rfl

theorem strictParseScript_serialize (objs : List RawObj)
    (hsafe : ∀ o ∈ objs, jsonSafe o.speaker = true ∧ jsonSafe o.text = true) :
    strictParseScript (serializeArr objs) = some objs := by
  cases objs with
  | nil => decide
  | cons o os =>
    have hser : serializeArr (o :: os) = '[' :: (arrBody (o :: os) ++ ']' :: []) := by
      simp [serializeArr]
    obtain ⟨Y, hY⟩ := arrBody_cons_append o os (']' :: [])
    have hsk : skipWs (arrBody (o :: os) ++ ']' :: []) =
        arrBody (o :: os) ++ ']' :: [] := by
      rw [hY, skipWs_objString, ← hY]
    have hshape : arrBody (o :: os) ++ ']' :: [] =
        '{' :: ('"' :: 's' :: 'p' :: 'e' :: 'a' :: 'k' :: 'e' :: 'r' :: '"' :: ':' :: ' ' ::
          '"' :: (escapeJson o.speaker ++ ('"' :: ',' :: ' ' :: '"' :: 't' :: 'e' :: 'x' ::
            't' :: '"' :: ':' :: ' ' :: '"' :: (escapeJson o.text ++ ('"' :: '}' :: Y))))) := by
      rw [hY, objString_norm]
    have hlen : (serializeArr (o :: os)).length = (arrBody (o :: os)).length + 2 := by
      rw [hser]
      simp
    have htop : parseTopArr ((serializeArr (o :: os)).length + 1) (serializeArr (o :: os)) =
        parseObjSeq ((serializeArr (o :: os)).length + 1)
          (arrBody (o :: os) ++ ']' :: []) := by
      refine parseTopArr_go _ _ _ ?_ '{'
        ('"' :: 's' :: 'p' :: 'e' :: 'a' :: 'k' :: 'e' :: 'r' :: '"' :: ':' :: ' ' ::
          '"' :: (escapeJson o.speaker ++ ('"' :: ',' :: ' ' :: '"' :: 't' :: 'e' :: 'x' ::
            't' :: '"' :: ':' :: ' ' :: '"' :: (escapeJson o.text ++ ('"' :: '}' :: Y)))))
        ?_ (by decide)
      · rw [hser]
        exact skipWs_not_ws _ (by decide)
      · rw [hsk, hshape]
    have harr := parseObjSeq_arr (o :: os) ((serializeArr (o :: os)).length + 1) []
      (by simp) hsafe (by omega)
    simp only [strictParseScript]
    rw [htop, harr]
    have hred : ∀ (l : List (List (List Char × JVal))),
        (match (some (l, ([] : List Char)) :
            Option (List (List (List Char × JVal)) × List Char)) with
          | none => none
          | some (objs2, rest) =>
            if (skipWs rest).isEmpty then objsToRaw objs2 else none) = objsToRaw l :=
      fun _ => rfl
    rw [hred, objsToRaw_pairs]

/-- Claim C2: in conversation mode, when the fence-stripped response is a
well-formed JSON array of `{speaker, text}` objects (the canonical
serialization of `objs`, with fields free of unescaped control characters),
the strict-parse tier succeeds and the recovered objects equal the input
array exactly in count, order and content; the returned script is their
image under the speaker mapper, texts unchanged. -/
theorem c2_strict_parse_roundtrip (config : PodcastConfig) (raw : List Char)
    (objs : List RawObj) (hmode : config.mode = Mode.conversation)
    (hsafe : ∀ o ∈ objs, jsonSafe o.speaker = true ∧ jsonSafe o.text = true)
    (hstrip : fenceStrip raw = serializeArr objs) :
    scriptObjs config raw = Except.ok objs ∧
    generateScriptFromResponse config raw = Except.ok (mapScript config objs) := by
  have hne : ¬ config.mode = Mode.monologue := by rw [hmode]; decide
  have hstrict := strictParseScript_serialize objs hsafe
  constructor
  · simp [scriptObjs, hne, hstrip, hstrict]
  · simp [generateScriptFromResponse, scriptObjs, hne, hstrip, hstrict]

/-- Witness for C2 on a two-object array with quotes, a backslash and a
newline in the second text. -/
theorem c2_strict_parse_roundtrip_witness :
    convConfig.mode = Mode.conversation ∧
    (∀ o ∈ [(⟨'H' :: 'o' :: 's' :: 't' :: [], 'H' :: 'i' :: []⟩ : RawObj),
        ⟨'E' :: 'x' :: 'p' :: 'e' :: 'r' :: 't' :: [],
          'a' :: '"' :: 'b' :: '\\' :: 'c' :: '\n' :: 'd' :: []⟩],
      jsonSafe o.speaker = true ∧ jsonSafe o.text = true) ∧
    fenceStrip (serializeArr [⟨'H' :: 'o' :: 's' :: 't' :: [], 'H' :: 'i' :: []⟩,
        ⟨'E' :: 'x' :: 'p' :: 'e' :: 'r' :: 't' :: [],
          'a' :: '"' :: 'b' :: '\\' :: 'c' :: '\n' :: 'd' :: []⟩]) =
      serializeArr [⟨'H' :: 'o' :: 's' :: 't' :: [], 'H' :: 'i' :: []⟩,
        ⟨'E' :: 'x' :: 'p' :: 'e' :: 'r' :: 't' :: [],
          'a' :: '"' :: 'b' :: '\\' :: 'c' :: '\n' :: 'd' :: []⟩] ∧
    scriptObjs convConfig (serializeArr [⟨'H' :: 'o' :: 's' :: 't' :: [], 'H' :: 'i' :: []⟩,
        ⟨'E' :: 'x' :: 'p' :: 'e' :: 'r' :: 't' :: [],
          'a' :: '"' :: 'b' :: '\\' :: 'c' :: '\n' :: 'd' :: []⟩]) =
      Except.ok [⟨'H' :: 'o' :: 's' :: 't' :: [], 'H' :: 'i' :: []⟩,
        ⟨'E' :: 'x' :: 'p' :: 'e' :: 'r' :: 't' :: [],
          'a' :: '"' :: 'b' :: '\\' :: 'c' :: '\n' :: 'd' :: []⟩] ∧
    generateScriptFromResponse convConfig
        (serializeArr [⟨'H' :: 'o' :: 's' :: 't' :: [], 'H' :: 'i' :: []⟩,
          ⟨'E' :: 'x' :: 'p' :: 'e' :: 'r' :: 't' :: [],
            'a' :: '"' :: 'b' :: '\\' :: 'c' :: '\n' :: 'd' :: []⟩]) =
      Except.ok (mapScript convConfig
        [⟨'H' :: 'o' :: 's' :: 't' :: [], 'H' :: 'i' :: []⟩,
         ⟨'E' :: 'x' :: 'p' :: 'e' :: 'r' :: 't' :: [],
           'a' :: '"' :: 'b' :: '\\' :: 'c' :: '\n' :: 'd' :: []⟩]) := by
  refine ⟨by decide, by decide, by decide, ?_, ?_⟩
  · exact (c2_strict_parse_roundtrip convConfig _ _ (by decide) (by decide) (by decide)).1
  · exact (c2_strict_parse_roundtrip convConfig _ _ (by decide) (by decide) (by decide)).2

/-! ## The pattern-recovery tier on a truncated serialization -/

theorem escapeJson_id (S : List Char)
    (h : ∀ c ∈ S, c ≠ '"' ∧ c ≠ '\\' ∧ c ≠ '\n') : escapeJson S = S := by
  induction S with
  | nil => rfl
  | cons c S' ih =>
    have hc := h c (List.mem_cons_self _ _)
    rw [show escapeJson (c :: S') = c :: escapeJson S' by
      simp [escapeJson, hc.1, hc.2.1, hc.2.2]]
    rw [ih (fun x hx => h x (List.mem_cons_of_mem _ hx))]

theorem escapeJson_no_brace {T : List Char} (h : '{' ∉ T) : '{' ∉ escapeJson T := by
  induction T with
  | nil => simp [escapeJson]
  | cons c T' ih =>
    have hc : c ≠ '{' := fun hh => h (hh ▸ List.mem_cons_self _ _)
    have ih2 := ih (fun hh => h (List.mem_cons_of_mem _ hh))
    by_cases h1 : c = '"'
    · rw [show escapeJson (c :: T') = '\\' :: '"' :: escapeJson T' by simp [escapeJson, h1]]
      intro hmem
      rcases List.mem_cons.mp hmem with he | hmem
      · exact absurd he (by decide)
      rcases List.mem_cons.mp hmem with he | hmem
      · exact absurd he (by decide)
      exact ih2 hmem
    · by_cases h2 : c = '\\'
      · rw [show escapeJson (c :: T') = '\\' :: '\\' :: escapeJson T' by
          simp [escapeJson, h1, h2]]
        intro hmem
        rcases List.mem_cons.mp hmem with he | hmem
        · exact absurd he (by decide)
        rcases List.mem_cons.mp hmem with he | hmem
        · exact absurd he (by decide)
        exact ih2 hmem
      · by_cases h3 : c = '\n'
        · rw [show escapeJson (c :: T') = '\\' :: 'n' :: escapeJson T' by
            simp [escapeJson, h1, h2, h3]]
          intro hmem
          rcases List.mem_cons.mp hmem with he | hmem
          · exact absurd he (by decide)
          rcases List.mem_cons.mp hmem with he | hmem
          · exact absurd he (by decide)
          exact ih2 hmem
        · rw [show escapeJson (c :: T') = c :: escapeJson T' by
            simp [escapeJson, h1, h2, h3]]
          intro hmem
          rcases List.mem_cons.mp hmem with he | hmem
          · exact hc he.symm
          · exact ih2 hmem

theorem tryMatch_cons_ne {c : Char} (t : List Char) (h : c ≠ '{') :
    tryMatch (c :: t) = none := by
  simp [tryMatch, h]

theorem munch_cons_quote (X : List Char) : munch ('"' :: X) = some ([], '"' :: X) := by
  rw [munch.eq_def]
  simp

theorem munch_cons_esc {d : Char} (X : List Char) (hd : lineTerm d = false) :
    munch ('\\' :: d :: X) =
      match munch X with
      | some (cap, r) => some ('\\' :: d :: cap, r)
      | none => none := by
  rw [munch.eq_def]
  simp [hd]

theorem munch_cons_other {c : Char} (X : List Char) (h1 : c ≠ '"') (h2 : c ≠ '\\') :
    munch (c :: X) =
      match munch X with
      | some (cap, r) => some (c :: cap, r)
      | none => none := by
  rw [munch.eq_def]
  simp [h1, h2]

theorem munch_escape (T : List Char) :
    ∀ r, munch (escapeJson T ++ '"' :: r) = some (escapeJson T, '"' :: r) := by
  induction T with
  | nil =>
    intro r
    rw [show escapeJson [] = [] from rfl, List.nil_append, munch_cons_quote]
  | cons c T' ih =>
    intro r
    by_cases h1 : c = '"'
    · rw [show escapeJson (c :: T') = '\\' :: '"' :: escapeJson T' by simp [escapeJson, h1]]
      rw [show ('\\' :: '"' :: escapeJson T') ++ '"' :: r =
        '\\' :: '"' :: (escapeJson T' ++ '"' :: r) from rfl]
      rw [munch_cons_esc _ (by decide), ih r]
    · by_cases h2 : c = '\\'
      · rw [show escapeJson (c :: T') = '\\' :: '\\' :: escapeJson T' by
          simp [escapeJson, h1, h2]]
        rw [show ('\\' :: '\\' :: escapeJson T') ++ '"' :: r =
          '\\' :: '\\' :: (escapeJson T' ++ '"' :: r) from rfl]
        rw [munch_cons_esc _ (by decide), ih r]
      · by_cases h3 : c = '\n'
        · rw [show escapeJson (c :: T') = '\\' :: 'n' :: escapeJson T' by
            simp [escapeJson, h1, h2, h3]]
          rw [show ('\\' :: 'n' :: escapeJson T') ++ '"' :: r =
            '\\' :: 'n' :: (escapeJson T' ++ '"' :: r) from rfl]
          rw [munch_cons_esc _ (by decide), ih r]
        · rw [show escapeJson (c :: T') = c :: escapeJson T' by
            simp [escapeJson, h1, h2, h3]]
          rw [show (c :: escapeJson T') ++ '"' :: r =
            c :: (escapeJson T' ++ '"' :: r) from rfl]
          rw [munch_cons_other _ h1 h2, ih r]

theorem munch_nil : munch [] = none := by
  rw [munch.eq_def]

theorem munch_escape_take (T : List Char) :
    ∀ j, j ≤ (escapeJson T).length → munch ((escapeJson T).take j) = none := by
  induction T with
  | nil =>
    intro j _
    rw [show escapeJson [] = [] from rfl, List.take_nil, munch_nil]
  | cons c T' ih =>
    intro j hj
    by_cases h1 : c = '"'
    · rw [show escapeJson (c :: T') = '\\' :: '"' :: escapeJson T' by
        simp [escapeJson, h1]] at hj ⊢
      match j, hj with
      | 0, _ => rw [List.take_zero, munch_nil]
      | 1, _ =>
        rw [show ('\\' :: '"' :: escapeJson T').take 1 = '\\' :: [] from rfl]
        decide
      | j + 2, hj =>
        rw [show ('\\' :: '"' :: escapeJson T').take (j + 2) =
          '\\' :: '"' :: (escapeJson T').take j from rfl]
        rw [munch_cons_esc _ (by decide), ih j (by simpa using hj)]
    · by_cases h2 : c = '\\'
      · rw [show escapeJson (c :: T') = '\\' :: '\\' :: escapeJson T' by
          simp [escapeJson, h1, h2]] at hj ⊢
        match j, hj with
        | 0, _ => rw [List.take_zero, munch_nil]
        | 1, _ =>
          rw [show ('\\' :: '\\' :: escapeJson T').take 1 = '\\' :: [] from rfl]
          decide
        | j + 2, hj =>
          rw [show ('\\' :: '\\' :: escapeJson T').take (j + 2) =
            '\\' :: '\\' :: (escapeJson T').take j from rfl]
          rw [munch_cons_esc _ (by decide), ih j (by simpa using hj)]
      · by_cases h3 : c = '\n'
        · rw [show escapeJson (c :: T') = '\\' :: 'n' :: escapeJson T' by
            simp [escapeJson, h1, h2, h3]] at hj ⊢
          match j, hj with
          | 0, _ => rw [List.take_zero, munch_nil]
          | 1, _ =>
            rw [show ('\\' :: 'n' :: escapeJson T').take 1 = '\\' :: [] from rfl]
            decide
          | j + 2, hj =>
            rw [show ('\\' :: 'n' :: escapeJson T').take (j + 2) =
              '\\' :: 'n' :: (escapeJson T').take j from rfl]
            rw [munch_cons_esc _ (by decide), ih j (by simpa using hj)]
        · rw [show escapeJson (c :: T') = c :: escapeJson T' by
            simp [escapeJson, h1, h2, h3]] at hj ⊢
          match j, hj with
          | 0, _ => rw [List.take_zero, munch_nil]
          | j + 1, hj =>
            rw [show (c :: escapeJson T').take (j + 1) =
              c :: (escapeJson T').take j from rfl]
            rw [munch_cons_other _ h1 h2, ih j (by simpa using hj)]

theorem takeWhile_neq_quote : ∀ (S : List Char), (∀ c ∈ S, c ≠ '"') →
    ∀ z, (S ++ '"' :: z).takeWhile (fun x => x != '"') = S := by
  intro S
  induction S with
  | nil =>
    intro _ z
    simp
  | cons c S' ih =>
    intro h z
    have hc := h c (List.mem_cons_self _ _)
    rw [List.cons_append,
      List.takeWhile_cons_of_pos (by simp [hc]),
      ih (fun x hx => h x (List.mem_cons_of_mem _ hx)) z]

theorem matchTextPart_open (w : List Char) :
    matchTextPart (',' :: ' ' :: '"' :: 't' :: 'e' :: 'x' :: 't' :: '"' :: ':' :: ' ' ::
        '"' :: w) =
      (match munch w with
       | none => none
       | some (cap, r9) =>
         match r9 with
         | [] => none
         | c3 :: r9t =>
           if c3 = '"' then
             match skipWs r9t with
             | [] => none
             | c4 :: r10 => if c4 = '}' then some (cap, r10) else none
           else none) := by
  simp only [matchTextPart]
  rw [skipWs_not_ws _ (by decide)]
  simp only [if_pos rfl, if_true, skipWs_space]
  rw [skipWs_not_ws _ (by decide)]
  rw [show expectStr textLit ('"' :: 't' :: 'e' :: 'x' :: 't' :: '"' :: ':' :: ' ' ::
      '"' :: w) = some (':' :: ' ' :: '"' :: w) by simp [expectStr, textLit, leads]]
  simp only []
  rw [skipWs_not_ws _ (by decide)]
  simp only [if_pos rfl, if_true, skipWs_space]
  rw [skipWs_not_ws _ (by decide)]
  simp only [if_pos rfl, if_true]

theorem tryMatch_open (u : List Char) :
    tryMatch ('{' :: '"' :: 's' :: 'p' :: 'e' :: 'a' :: 'k' :: 'e' :: 'r' :: '"' :: ':' ::
        ' ' :: '"' :: u) =
      (if (u.takeWhile (fun x => x != '"')).isEmpty then none
       else
         match u.drop (u.takeWhile (fun x => x != '"')).length with
         | [] => none
         | c3 :: r4 =>
           if c3 = '"' then
             match matchTextPart r4 with
             | some (cap, rest) => some (⟨u.takeWhile (fun x => x != '"'), cap⟩, rest)
             | none => none
           else none) := by
  simp only [tryMatch, if_pos rfl, if_true]
  rw [skipWs_not_ws _ (by decide)]
  rw [show expectStr speakerLit ('"' :: 's' :: 'p' :: 'e' :: 'a' :: 'k' :: 'e' :: 'r' ::
      '"' :: ':' :: ' ' :: '"' :: u) = some (':' :: ' ' :: '"' :: u) by
    simp [expectStr, speakerLit, leads]]
  simp only []
  rw [skipWs_not_ws _ (by decide)]
  simp only [if_pos rfl, if_true, skipWs_space]
  rw [skipWs_not_ws _ (by decide)]
  simp only [if_pos rfl, if_true]

theorem speakerOk_elim {S : List Char} (h : speakerOk S = true) :
    S ≠ [] ∧ ∀ c ∈ S, c ≠ '"' ∧ c ≠ '\\' ∧ c ≠ '\n' ∧ c ≠ '{' := by
  simp only [speakerOk, Bool.and_eq_true, List.all_eq_true] at h
  constructor
  · intro hnil
    rw [hnil] at h
    simp at h
  · intro c hc
    have := h.2 c hc
    simp only [Bool.and_eq_true, bne_iff_ne] at this
    exact ⟨this.1.1.1, this.1.1.2, this.1.2, this.2⟩

theorem tryMatch_objString (o : RawObj) (rest : List Char)
    (hS : speakerOk o.speaker = true) :
    tryMatch (objString o ++ rest) = some (⟨o.speaker, escapeJson o.text⟩, rest) := by
  obtain ⟨hne, hall⟩ := speakerOk_elim hS
  have hid : escapeJson o.speaker = o.speaker :=
    escapeJson_id _ (fun c hc => ⟨(hall c hc).1, (hall c hc).2.1, (hall c hc).2.2.1⟩)
  rw [objString_norm, hid, tryMatch_open]
  rw [takeWhile_neq_quote o.speaker (fun c hc => (hall c hc).1) _]
  have hie : (o.speaker).isEmpty = false := by
    cases h : o.speaker with
    | nil => exact absurd h hne
    | cons a l => rfl
  rw [hie]
  simp only [Bool.false_eq_true, if_false]
  have hdrop := List.drop_left o.speaker
    ('"' :: ',' :: ' ' :: '"' :: 't' :: 'e' :: 'x' :: 't' :: '"' :: ':' :: ' ' :: '"' ::
      (escapeJson o.text ++ ('"' :: '}' :: rest)))
  rw [hdrop]
  simp only [if_pos rfl, if_true]
  rw [matchTextPart_open, munch_escape o.text ('}' :: rest)]
  simp only [if_pos rfl, if_true]
  rw [skipWs_not_ws _ (by decide)]
  simp only [if_pos rfl, if_true]


theorem takeWhile_all_neq (S : List Char) (h : ∀ c ∈ S, c ≠ '"') :
    S.takeWhile (fun x => x != '"') = S := by
  induction S with
  | nil => rfl
  | cons c S' ih =>
    rw [List.takeWhile_cons_of_pos (by simp [h c (List.mem_cons_self _ _)]),
      ih (fun x hx => h x (List.mem_cons_of_mem _ hx))]

theorem matchTextPart_seg2_take : ∀ j, j ≤ 11 →
    matchTextPart ((',' :: ' ' :: '"' :: 't' :: 'e' :: 'x' :: 't' :: '"' :: ':' :: ' ' ::
      '"' :: []).take j) = none := by decide

theorem tryMatch_objString_take (o : RawObj) (m : Nat)
    (hS : speakerOk o.speaker = true)
    (hm : m < (objString o).length) :
    tryMatch ((objString o).take m) = none := by
  obtain ⟨hne, hall⟩ := speakerOk_elim hS
  have hid : escapeJson o.speaker = o.speaker :=
    escapeJson_id _ (fun c hc => ⟨(hall c hc).1, (hall c hc).2.1, (hall c hc).2.2.1⟩)
  have hobj : objString o =
      ('{' :: '"' :: 's' :: 'p' :: 'e' :: 'a' :: 'k' :: 'e' :: 'r' :: '"' :: ':' :: ' ' ::
        '"' :: []) ++ (o.speaker ++
        (('"' :: ',' :: ' ' :: '"' :: 't' :: 'e' :: 'x' :: 't' :: '"' :: ':' :: ' ' ::
          '"' :: []) ++ (escapeJson o.text ++ ('"' :: '}' :: [])))) := by
    have h0 := objString_norm o []
    rw [List.append_nil] at h0
    rw [h0, hid]
    rfl
  have hlen : (objString o).length =
      o.speaker.length + (escapeJson o.text).length + 27 := by
    rw [objString_length, hid]
  rw [hobj] at hm ⊢
  simp only [List.length_append, List.length_cons, List.length_nil] at hm
  by_cases hm1 : m ≤ 13
  · rw [List.take_append_eq_append_take]
    rw [show m - ('{' :: '"' :: 's' :: 'p' :: 'e' :: 'a' :: 'k' :: 'e' :: 'r' :: '"' :: ':' ::
      ' ' :: '"' :: []).length = 0 by simp; omega]
    rw [List.take_zero, List.append_nil]
    interval_cases m <;> decide
  · push_neg at hm1
    obtain ⟨k, rfl⟩ : ∃ k, m = 14 + k := ⟨m - 14, by omega⟩
    rw [List.take_append_eq_append_take]
    rw [List.take_of_length_le (by simp only [List.length_cons, List.length_nil]; omega)]
    rw [show 14 + k - ('{' :: '"' :: 's' :: 'p' :: 'e' :: 'a' :: 'k' :: 'e' :: 'r' :: '"' ::
      ':' :: ' ' :: '"' :: ([] : List Char)).length = k + 1 by
      simp only [List.length_cons, List.length_nil]; omega]
    simp only [List.cons_append, List.nil_append]
    rw [tryMatch_open]
    by_cases hb : k + 1 ≤ o.speaker.length
    · rw [List.take_append_eq_append_take]
      rw [show k + 1 - o.speaker.length = 0 by omega, List.take_zero, List.append_nil]
      have hsub : ∀ c ∈ o.speaker.take (k + 1), c ≠ '"' :=
        fun c hc => (hall c (List.take_subset _ _ hc)).1
      rw [takeWhile_all_neq _ hsub]
      have hie2 : (o.speaker.take (k + 1)).isEmpty = false := by
        cases hS0 : o.speaker with
        | nil => exact absurd hS0 hne
        | cons a l => rw [List.take_succ_cons]; rfl
      rw [hie2]
      simp only [Bool.false_eq_true, if_false]
      rw [List.drop_length]
    · push_neg at hb
      obtain ⟨j, hj⟩ : ∃ j, k + 1 = o.speaker.length + (j + 1) :=
        ⟨k - o.speaker.length, by omega⟩
      rw [hj]
      rw [List.take_append_eq_append_take]
      rw [List.take_of_length_le (by omega)]
      rw [show o.speaker.length + (j + 1) - o.speaker.length = j + 1 by omega]
      rw [List.take_succ_cons]
      rw [takeWhile_neq_quote o.speaker (fun c hc => (hall c hc).1)]
      have hie : (o.speaker).isEmpty = false := by
        cases h0 : o.speaker with
        | nil => exact absurd h0 hne
        | cons a l => rfl
      rw [hie]
      simp only [Bool.false_eq_true, if_false]
      rw [List.drop_left]
      simp only [if_pos rfl, if_true]
      by_cases hc11 : j ≤ 11
      · rw [show (',' :: ' ' :: '"' :: 't' :: 'e' :: 'x' :: 't' :: '"' :: ':' :: ' ' :: '"' ::
          (escapeJson o.text ++ '"' :: '}' :: [])) =
          (',' :: ' ' :: '"' :: 't' :: 'e' :: 'x' :: 't' :: '"' :: ':' :: ' ' :: '"' :: []) ++
          (escapeJson o.text ++ '"' :: '}' :: []) from rfl]
        rw [List.take_append_eq_append_take]
        rw [show j - (',' :: ' ' :: '"' :: 't' :: 'e' :: 'x' :: 't' :: '"' :: ':' :: ' ' ::
          '"' :: ([] : List Char)).length = 0 by
          simp only [List.length_cons, List.length_nil]; omega]
        rw [List.take_zero, List.append_nil]
        rw [matchTextPart_seg2_take j hc11]
      · push_neg at hc11
        obtain ⟨t, rfl⟩ : ∃ t, j = 12 + t := ⟨j - 12, by omega⟩
        rw [show (',' :: ' ' :: '"' :: 't' :: 'e' :: 'x' :: 't' :: '"' :: ':' :: ' ' :: '"' ::
          (escapeJson o.text ++ '"' :: '}' :: [])) =
          (',' :: ' ' :: '"' :: 't' :: 'e' :: 'x' :: 't' :: '"' :: ':' :: ' ' :: '"' :: []) ++
          (escapeJson o.text ++ '"' :: '}' :: []) from rfl]
        rw [List.take_append_eq_append_take]
        rw [List.take_of_length_le (by simp only [List.length_cons, List.length_nil]; omega)]
        rw [show 12 + t - (',' :: ' ' :: '"' :: 't' :: 'e' :: 'x' :: 't' :: '"' :: ':' :: ' ' ::
          '"' :: ([] : List Char)).length = t + 1 by
          simp only [List.length_cons, List.length_nil]; omega]
        simp only [List.cons_append, List.nil_append]
        rw [matchTextPart_open]
        rw [List.take_append_eq_append_take]
        by_cases hd : t + 1 ≤ (escapeJson o.text).length
        · rw [show t + 1 - (escapeJson o.text).length = 0 by omega, List.take_zero,
            List.append_nil]
          rw [munch_escape_take o.text (t + 1) hd]
        · have ht : t = (escapeJson o.text).length := by omega
          subst ht
          rw [List.take_of_length_le (by omega)]
          rw [show (escapeJson o.text).length + 1 - (escapeJson o.text).length = 1 by omega]
          rw [show ('"' :: '}' :: ([] : List Char)).take 1 = '"' :: [] from rfl]
          rw [munch_escape o.text []]
          rfl

theorem tryMatch_nil : tryMatch [] = none := by
  decide

theorem objString_no_brace_tail {o : RawObj} (hS : speakerOk o.speaker = true)
    (hT : '{' ∉ o.text) : '{' ∉ (objString o).drop 1 := by
  obtain ⟨hne, hall⟩ := speakerOk_elim hS
  have hid : escapeJson o.speaker = o.speaker :=
    escapeJson_id _ (fun c hc => ⟨(hall c hc).1, (hall c hc).2.1, (hall c hc).2.2.1⟩)
  have h0 := objString_norm o []
  rw [List.append_nil] at h0
  have hSb : '{' ∉ o.speaker := fun hc => (hall _ hc).2.2.2 rfl
  have hTb : '{' ∉ escapeJson o.text := escapeJson_no_brace hT
  rw [h0, hid]
  intro hmem
  simp only [List.drop_one, List.tail_cons] at hmem
  simp +decide [hSb, hTb] at hmem

theorem scanAux_none : ∀ (f : Nat) (u : List Char),
    (∀ i, tryMatch (u.drop i) = none) → scanAux f u = []
  | 0, _, _ => rfl
  | _ + 1, [], _ => rfl
  | f + 1, c :: cs, h => by
    have h0 := h 0
    rw [List.drop_zero] at h0
    rw [show scanAux (f + 1) (c :: cs) =
      (match tryMatch (c :: cs) with
       | some (o, rest) => o :: scanAux f rest
       | none => scanAux f cs) from rfl]
    rw [h0]
    exact scanAux_none f cs (fun i => by
      have hi := h (i + 1)
      rwa [List.drop_succ_cons] at hi)

theorem tryMatch_partial_none (last : RawObj) (m : Nat)
    (hS : speakerOk last.speaker = true) (hT : '{' ∉ last.text)
    (hm : m < (objString last).length) :
    ∀ i, tryMatch (((objString last).take m).drop i) = none := by
  intro i
  cases i with
  | zero =>
    rw [List.drop_zero]
    exact tryMatch_objString_take last m hS hm
  | succ j =>
    cases hu : ((objString last).take m).drop (j + 1) with
    | nil => exact tryMatch_nil
    | cons d ds =>
      have hd : d ∈ (objString last).drop 1 := by
        have h1 : d ∈ ((objString last).take m).drop (j + 1) := by
          rw [hu]
          exact List.mem_cons_self _ _
        rw [List.drop_take] at h1
        have h2 : d ∈ (objString last).drop (j + 1) := List.take_subset _ _ h1
        have h3 : (objString last).drop (j + 1) = ((objString last).drop 1).drop j := by
          rw [List.drop_drop, Nat.add_comm]
        rw [h3] at h2
        exact List.drop_subset _ _ h2
      exact tryMatch_cons_ne ds
        (fun hE => (objString_no_brace_tail hS hT) (hE ▸ hd))

theorem scanAux_skip (f : Nat) (c : Char) (cs : List Char)
    (h : tryMatch (c :: cs) = none) :
    scanAux (f + 1) (c :: cs) = scanAux f cs := by
  rw [show scanAux (f + 1) (c :: cs) =
    (match tryMatch (c :: cs) with
     | some (o, rest) => o :: scanAux f rest
     | none => scanAux f cs) from rfl, h]

theorem scanAux_match (f : Nat) (c : Char) (cs : List Char) (o : RawObj) (rest : List Char)
    (h : tryMatch (c :: cs) = some (o, rest)) :
    scanAux (f + 1) (c :: cs) = o :: scanAux f rest := by
  rw [show scanAux (f + 1) (c :: cs) =
    (match tryMatch (c :: cs) with
     | some (o2, rest2) => o2 :: scanAux f rest2
     | none => scanAux f cs) from rfl, h]

theorem scanTrunc (last : RawObj) (m : Nat)
    (hS : speakerOk last.speaker = true) (hT : '{' ∉ last.text)
    (hm : m < (objString last).length) :
    ∀ (pre : List RawObj) (f : Nat),
      (∀ o ∈ pre, speakerOk o.speaker = true) →
      (truncTail pre last m).length ≤ f →
      scanAux f (truncTail pre last m) =
        pre.map (fun o => (⟨o.speaker, escapeJson o.text⟩ : RawObj))
  | [], f, _, _ => by
    rw [show truncTail [] last m = (objString last).take m from rfl]
    rw [scanAux_none f _ (tryMatch_partial_none last m hS hT hm)]
    rfl
  | o :: os, f, hpre, hf => by
    rw [show truncTail (o :: os) last m =
      objString o ++ ',' :: ' ' :: truncTail os last m from rfl] at hf ⊢
    have hol := objString_length o
    have hlen : (objString o ++ ',' :: ' ' :: truncTail os last m).length =
        (objString o).length + ((truncTail os last m).length + 2) := by
      simp
    rw [hlen] at hf
    obtain ⟨g, rfl⟩ : ∃ g, f = g + 3 := ⟨f - 3, by omega⟩
    have hmatch := tryMatch_objString o (',' :: ' ' :: truncTail os last m)
      (hpre o (List.mem_cons_self _ _))
    have hcons := objString_norm o (',' :: ' ' :: truncTail os last m)
    have hstep : scanAux (g + 3) (objString o ++ ',' :: ' ' :: truncTail os last m) =
        (⟨o.speaker, escapeJson o.text⟩ : RawObj) ::
          scanAux (g + 2) (',' :: ' ' :: truncTail os last m) := by
      rw [hcons]
      exact scanAux_match (g + 2) _ _ _ _ (by rw [← hcons]; exact hmatch)
    rw [hstep]
    rw [scanAux_skip _ _ _ (tryMatch_cons_ne _ (by decide))]
    rw [scanAux_skip _ _ _ (tryMatch_cons_ne _ (by decide))]
    rw [scanTrunc last m hS hT hm os g
      (fun o2 ho2 => hpre o2 (List.mem_cons_of_mem _ ho2)) (by omega)]
    rfl

theorem patternMatches_trunc (pre : List RawObj) (last : RawObj) (m : Nat)
    (hpre : ∀ o ∈ pre, speakerOk o.speaker = true)
    (hS : speakerOk last.speaker = true) (hT : '{' ∉ last.text)
    (hm : m < (objString last).length) :
    patternMatches (truncRaw pre last m) =
      pre.map (fun o => (⟨o.speaker, escapeJson o.text⟩ : RawObj)) := by
  rw [patternMatches, truncRaw]
  rw [show ('[' :: truncTail pre last m).length = (truncTail pre last m).length + 1 by
    simp]
  rw [scanAux_skip _ _ _ (tryMatch_cons_ne _ (by decide))]
  exact scanTrunc last m hS hT hm pre _ hpre le_rfl

theorem fenceStrip_bracket (tt : List Char)
    (hend : endsWith ('`' :: '`' :: '`' :: []) ('[' :: tt) = false) :
    fenceStrip ('[' :: tt) = '[' :: tt := by
  rw [fenceStrip]
  rw [show leads ('`' :: '`' :: '`' :: 'j' :: 's' :: 'o' :: 'n' :: []) ('[' :: tt) = false by
    simp [leads]]
  simp only [Bool.false_eq_true, if_false]
  rw [show leads ('`' :: '`' :: '`' :: []) ('[' :: tt) = false by simp [leads]]
  simp only [Bool.false_eq_true, if_false, hend]

/-- Claim C1, counterexample: a truncated array whose surviving object has the
text `a\nb` — a literal backslash followed by the letter `n` — is corrupted by
the pattern-recovery tier: the recovered text holds a backslash followed by a
real newline, so earlier entries are not always uncorrupted. -/
theorem c1_truncation_recovery_cex :
    (patternMatches (truncRaw ((⟨hostLabel, 'a' :: '\\' :: 'n' :: 'b' :: []⟩ : RawObj) :: [])
        ⟨expertLabel, 'x' :: []⟩ 5)).map
      (fun o => (⟨o.speaker, unescapeText o.text⟩ : RawObj)) ≠
      (⟨hostLabel, 'a' :: '\\' :: 'n' :: 'b' :: []⟩ : RawObj) :: [] := by
  decide

/-- Claim C1 (amended): in conversation mode, for every serialized
`{speaker, text}` array truncated inside the object following the complete
objects `pre` — with strict JSON parsing failing on the truncated raw text and
no code fence trailing it — the pattern-recovery tier yields exactly the
objects of `pre`, in their original order, each speaker uncorrupted and, the
texts being free of a backslash immediately followed by the letter `n`, each
text uncorrupted; the pipeline then returns exactly the mapped `pre`. -/
theorem c1_truncation_recovery (config : PodcastConfig) (pre : List RawObj) (last : RawObj)
    (m : Nat)
    (hmode : config.mode = Mode.conversation)
    (hpre : ∀ o ∈ pre, speakerOk o.speaker = true ∧ noBackNl o.text = true)
    (hS : speakerOk last.speaker = true) (hT : '{' ∉ last.text)
    (hm : m < (objString last).length)
    (hstrict : strictParseScript (truncRaw pre last m) = none)
    (hfence : endsWith ('`' :: '`' :: '`' :: []) (truncRaw pre last m) = false) :
    (patternMatches (truncRaw pre last m)).map
        (fun o => (⟨o.speaker, unescapeText o.text⟩ : RawObj)) = pre ∧
      (pre ≠ [] →
        generateScriptFromResponse config (truncRaw pre last m) =
          Except.ok (mapScript config pre)) := by
  have hpm := patternMatches_trunc pre last m (fun o ho => (hpre o ho).1) hS hT hm
  have hcomp : (pre.map (fun o => (⟨o.speaker, escapeJson o.text⟩ : RawObj))).map
      (fun o => (⟨o.speaker, unescapeText o.text⟩ : RawObj)) = pre := by
    rw [List.map_map]
    have hcg : ∀ o ∈ pre,
        ((fun o => (⟨o.speaker, unescapeText o.text⟩ : RawObj)) ∘
          (fun o => (⟨o.speaker, escapeJson o.text⟩ : RawObj))) o = id o := by
      intro o ho
      show (⟨o.speaker, unescapeText (escapeJson o.text)⟩ : RawObj) = o
      rw [unescape_escape_of_noBackNl o.text (hpre o ho).2]
    rw [List.map_congr_left hcg, List.map_id]
  have hmap : (patternMatches (truncRaw pre last m)).map
      (fun o => (⟨o.speaker, unescapeText o.text⟩ : RawObj)) = pre := by
    rw [hpm]
    exact hcomp
  refine ⟨hmap, fun hne => ?_⟩
  have hfs : fenceStrip (truncRaw pre last m) = truncRaw pre last m := by
    rw [truncRaw] at hfence ⊢
    exact fenceStrip_bracket _ hfence
  have hie : ((pre.map (fun o => (⟨o.speaker, escapeJson o.text⟩ : RawObj))).isEmpty) = false := by
    cases pre with
    | nil => exact absurd rfl hne
    | cons a l => rfl
  have hobjs : scriptObjs config (truncRaw pre last m) = Except.ok pre := by
    simp only [scriptObjs, hmode]
    rw [if_neg (by decide)]
    rw [hfs, hstrict, hpm, hie]
    simp only [Bool.not_false, if_true, if_pos rfl]
    exact congrArg Except.ok hcomp
  simp only [generateScriptFromResponse, hobjs]

/-- Claim C1, witness: the truncation of `[{"speaker": "Host", "text": "a\\b"},
{"speaker": "Expert", "text": "x"}]` ten characters into the second object is
recovered by the pattern tier as exactly the first object. -/
theorem c1_truncation_recovery_witness :
    convConfig.mode = Mode.conversation ∧
    (∀ o ∈ (⟨hostLabel, 'a' :: '\\' :: 'b' :: []⟩ : RawObj) :: [],
      speakerOk o.speaker = true ∧ noBackNl o.text = true) ∧
    speakerOk (⟨expertLabel, 'x' :: []⟩ : RawObj).speaker = true ∧
    '{' ∉ (⟨expertLabel, 'x' :: []⟩ : RawObj).text ∧
    10 < (objString ⟨expertLabel, 'x' :: []⟩).length ∧
    strictParseScript (truncRaw ((⟨hostLabel, 'a' :: '\\' :: 'b' :: []⟩ : RawObj) :: [])
      ⟨expertLabel, 'x' :: []⟩ 10) = none ∧
    endsWith ('`' :: '`' :: '`' :: []) (truncRaw
      ((⟨hostLabel, 'a' :: '\\' :: 'b' :: []⟩ : RawObj) :: [])
      ⟨expertLabel, 'x' :: []⟩ 10) = false ∧
    ((patternMatches (truncRaw ((⟨hostLabel, 'a' :: '\\' :: 'b' :: []⟩ : RawObj) :: [])
        ⟨expertLabel, 'x' :: []⟩ 10)).map
          (fun o => (⟨o.speaker, unescapeText o.text⟩ : RawObj)) =
        (⟨hostLabel, 'a' :: '\\' :: 'b' :: []⟩ : RawObj) :: [] ∧
      ((⟨hostLabel, 'a' :: '\\' :: 'b' :: []⟩ : RawObj) :: [] ≠ ([] : List RawObj) →
        generateScriptFromResponse convConfig
            (truncRaw ((⟨hostLabel, 'a' :: '\\' :: 'b' :: []⟩ : RawObj) :: [])
              ⟨expertLabel, 'x' :: []⟩ 10) =
          Except.ok (mapScript convConfig
            ((⟨hostLabel, 'a' :: '\\' :: 'b' :: []⟩ : RawObj) :: [])))) :=
  ⟨by decide, by decide, by decide, by decide, by decide, by decide, by decide,
    c1_truncation_recovery convConfig
      ((⟨hostLabel, 'a' :: '\\' :: 'b' :: []⟩ : RawObj) :: [])
      ⟨expertLabel, 'x' :: []⟩ 10 (by decide) (by decide) (by decide) (by decide)
      (by decide) (by decide) (by decide)⟩
